import Mathlib

/-!
Verification of the versioned Glue catalog swap algorithm
(`src/lib/overwrite_glue.py`).  Python strings are modelled as `List Char`,
Python dicts as ordered association lists, and the Glue catalog as an
explicit state record threaded through each operation.  Fallible Python
code (uncaught exceptions) is modelled with an error component in the
result.
-/

deriving instance DecidableEq for Except

namespace OverwriteGlue

/-- Boolean test that `p` is an initial segment of `s` (used to model the
leftmost-match search of Python's `str.replace`). -/
def leadsWith : List Char → List Char → Bool
  | [], _ => true
  | _ :: _, [] => false
  | a :: as, b :: bs => a = b && leadsWith as bs

/-- Python's `str.split('/')`: every occurrence of `'/'` separates two
(possibly empty) segments, so the result always has one more segment than
there are slashes. -/
def splitOnSlash : List Char → List (List Char)
  | [] => [[]]
  | c :: rest =>
    match splitOnSlash rest with
    | [] => [[c]]
    | g :: gs => if c = '/' then [] :: g :: gs else (c :: g) :: gs

/-- Python's `'/'.join(segments)`. -/
def joinSlash : List (List Char) → List Char
  | [] => []
  | [g] => g
  | g :: gs => g ++ '/' :: joinSlash gs

/-- The pattern string of `replace('version_', '')` at line 125. -/
def verChars : List Char := "version_".toList

/-- Fuel-driven worker for `stripVersionAll`; the fuel is an upper bound on
the number of characters still to be scanned, so `stripGo s.length s`
computes the total replace-all. -/
def stripGo : Nat → List Char → List Char
  | _, [] => []
  | 0, s => s
  | fuel + 1, c :: rest =>
    if leadsWith verChars (c :: rest) then stripGo fuel ((c :: rest).drop 8)
    else c :: stripGo fuel rest

/-- Python's `s.replace('version_', '')` (line 125): removes every
left-to-right non-overlapping occurrence of `"version_"`. -/
def stripVersionAll (s : List Char) : List Char := stripGo s.length s

/-- Digit character for a single decimal digit, as produced by Python's
`str` on integers. -/
def digitChar : Nat → Char
  | 0 => '0' | 1 => '1' | 2 => '2' | 3 => '3' | 4 => '4'
  | 5 => '5' | 6 => '6' | 7 => '7' | 8 => '8' | _ => '9'

/-- Numeric value of a digit character. -/
def charVal (c : Char) : Nat := c.toNat - 48

/-- Fuel-driven most-significant-digit-first decimal rendering; fuel
`n + 1` always suffices. -/
def natDigits : Nat → Nat → List Char
  | 0, _ => []
  | fuel + 1, n =>
    if n < 10 then [digitChar n]
    else natDigits fuel (n / 10) ++ [digitChar (n % 10)]

/-- Decimal rendering of a natural number, matching Python's `str`. -/
def natRepr (n : Nat) : List Char := natDigits (n + 1) n

/-- Decimal rendering of an integer, matching Python's `str`. -/
def pyIntRepr (i : Int) : List Char :=
  if i < 0 then '-' :: natRepr i.natAbs else natRepr i.toNat

/-- Digit run parser with accumulator; a single `'_'` is allowed between
two digits, as in Python integer literals accepted by `int`. -/
def parseDigits : Nat → List Char → Option Nat
  | acc, [] => some acc
  | acc, c :: rest =>
    if c.isDigit then parseDigits (acc * 10 + charVal c) rest
    else if c = '_' then
      match rest with
      | [] => none
      | d :: rest2 =>
        if d.isDigit then parseDigits (acc * 10 + charVal d) rest2 else none
    else none

/-- Nonempty digit run starting with a digit. -/
def pyNat : List Char → Option Nat
  | [] => none
  | c :: rest => if c.isDigit then parseDigits (charVal c) rest else none

/-- Whitespace trimming performed by Python's `int` before parsing. -/
def trimSpaces (s : List Char) : List Char :=
  ((s.dropWhile Char.isWhitespace).reverse.dropWhile Char.isWhitespace).reverse

/-- Python's `int(s)` on decimal text (line 125): optional surrounding
whitespace, optional sign, then a digit run with optional single
underscores between digits; `none` models the `ValueError` raise. -/
def pyInt (s : List Char) : Option Int :=
  match trimSpaces s with
  | '-' :: rest => (pyNat rest).map (fun n => -(n : Int))
  | '+' :: rest => (pyNat rest).map (fun n => (n : Int))
  | t => (pyNat t).map (fun n => (n : Int))

/-- Splits a list into consecutive chunks of `size` elements (the last one
possibly shorter), as `range(0, len, size)` slicing does; `size = 0`
yields no chunks (Python would raise on a zero step, which no caller
does). -/
def chunkedGo (size : Nat) : Nat → List α → List (List α)
  | _, [] => []
  | 0, l => [l]
  | fuel + 1, x :: xs => (x :: xs.take (size - 1)) :: chunkedGo size fuel (xs.drop (size - 1))

/-- Chunking wrapper with fuel equal to the list length. -/
def chunked (size : Nat) (l : List α) : List (List α) :=
  if size = 0 then [] else chunkedGo size l.length l

/-- Appends a trailing separator when the path lacks one. -/
def ensureSlash (l : List Char) : List Char :=
  if l.getLast? = some '/' then l else l ++ ['/']

/-- Strings of the Python program. -/
abbrev Str := List Char

/-- Leaf values stored in the catalog dictionaries: strings, opaque scalar
payloads (timestamps, booleans, column blobs) tagged by a number, and the
string lists used for partition `Values`. -/
inductive PyV0 where
  | str : Str → PyV0
  | atom : Nat → PyV0
  | strList : List Str → PyV0
deriving DecidableEq

/-- Values of a top-level catalog dictionary: a leaf, or one nested
dictionary of leaves (the program only ever dereferences one dictionary
level below a table or partition record, e.g. `StorageDescriptor`). -/
inductive PyV1 where
  | v0 : PyV0 → PyV1
  | dict : List (Str × PyV0) → PyV1
deriving DecidableEq

instance : Inhabited PyV0 := ⟨.atom 0⟩

instance : Inhabited PyV1 := ⟨.v0 default⟩

/-- A `StorageDescriptor`-style nested dictionary. -/
abbrev SDDict := List (Str × PyV0)

/-- A table definition dictionary, as returned in `response['Table']`. -/
abbrev TableDict := List (Str × PyV1)

/-- A partition record dictionary. -/
abbrev PartDict := List (Str × PyV1)

/-- First value bound to `key`, modelling Python's `d[key]` lookup (also
used for the catalog's own maps keyed by (database, table) pairs). -/
def dictGet [DecidableEq κ] : List (κ × α) → κ → Option α
  | [], _ => none
  | (k, v) :: rest, key => if k = key then some v else dictGet rest key

/-- Presence of a key in an association list. -/
def containsKey [DecidableEq κ] (d : List (κ × α)) (key : κ) : Bool :=
  d.any (fun kv => decide (kv.1 = key))

/-- Rebinds every occurrence of `key` to `v` in place. -/
def replaceKey [DecidableEq κ] : List (κ × α) → κ → α → List (κ × α)
  | [], _, _ => []
  | (k1, v1) :: rest, key, v =>
    if k1 = key then (key, v) :: replaceKey rest key v
    else (k1, v1) :: replaceKey rest key v

/-- Membership of a key in an exclusion list, as a boolean. -/
def keyExcluded [DecidableEq κ] (ks : List κ) (k : κ) : Bool :=
  ks.any (fun k2 => decide (k2 = k))

/-- Python's `d[key] = v`: replaces the binding when the key is present
(preserving the position a Python dict guarantees), otherwise appends the
new binding. -/
def dictSet [DecidableEq κ] (d : List (κ × α)) (key : κ) (v : α) :
    List (κ × α) :=
  if containsKey d key then replaceKey d key v else d ++ [(key, v)]

/-- Python keys used by the program. -/
def keyTable : Str := "Table".toList

/-- The `StorageDescriptor` key. -/
def keySD : Str := "StorageDescriptor".toList

/-- The `Location` key. -/
def keyLocation : Str := "Location".toList

/-- The `Name` key. -/
def keyName : Str := "Name".toList

/-- The `Values` key of a partition record. -/
def keyValues : Str := "Values".toList

/-- Keys excluded by the dict comprehension at lines 108-110. -/
def excludedTableKeys : List Str :=
  ["CreatedBy".toList, "CreateTime".toList, "UpdateTime".toList,
   "DatabaseName".toList, "IsRegisteredWithLakeFormation".toList]

/-- Keys excluded by the dict comprehension at lines 50-51. -/
def excludedPartitionKeys : List Str :=
  ["DatabaseName".toList, "TableName".toList, "CreationTime".toList]

/-- Error kinds of the uncaught Python exceptions, labelled with the
specification's taxonomy where it names them. -/
inductive PyErr where
  | malformedVersionPath
  | dataProcessorFailure
  | keyError
  | typeError
  | entityNotFound
  | invalidInput
deriving DecidableEq

/-- The `get_table` response object: the program reads only its `'Table'`
entry (`existing_target_table['Table']`), modelled as a projection. -/
structure GetTableResponse where
  tableEntry : TableDict
deriving DecidableEq

/-- Path-level core of `calculate_next_location` (lines 123-129): split on
`'/'`, read the second-to-last segment (negative indexing raises
`IndexError` on short lists), remove every `"version_"` occurrence, parse
with `int` (raising `ValueError` on failure), then rebuild the path with
`version_<n+1>` and a trailing empty segment. -/
def next_location_of (loc : Str) : Except PyErr Str :=
  let parts := splitOnSlash loc
  if 2 ≤ parts.length then
    let seg := parts.getD (parts.length - 2) []
    match pyInt (stripVersionAll seg) with
    | none => Except.error .malformedVersionPath
    | some n =>
      Except.ok (joinSlash (parts.take (parts.length - 2) ++ [verChars ++ pyIntRepr (n + 1), []]))
  else Except.error .malformedVersionPath

/-- Lines 121-129: dereferences `['Table']['StorageDescriptor']['Location']`
(a missing or badly-typed key raises, modelled as `keyError`), then
computes the next versioned location. -/
def calculate_next_location (resp : GetTableResponse) : Except PyErr Str :=
  match dictGet resp.tableEntry keySD with
  | some (.dict sd) =>
    match dictGet sd keyLocation with
    | some (.str loc) => next_location_of loc
    | _ => Except.error .keyError
  | _ => Except.error .keyError

/-- Projection used in theorem statements: a table definition's storage
location. -/
def tableLocation (d : TableDict) : Option Str :=
  match dictGet d keySD with
  | some (.dict sd) =>
    match dictGet sd keyLocation with
    | some (.str loc) => some loc
    | _ => none
  | _ => none

/-- Projection used in theorem statements: a table definition's schema
(the `Columns` entry of its storage descriptor). -/
def tableSchema (d : TableDict) : Option PyV0 :=
  match dictGet d keySD with
  | some (.dict sd) => dictGet sd ("Columns".toList)
  | _ => none

/-- One AWS Glue API call, recorded for reasoning about which requests an
invocation issues. -/
inductive GlueCall where
  | getTable (db name : Str)
  | writeParquet (path db name : Str)
  | getPartitions (db name : Str)
  | batchDeletePartition (db name : Str) (values : List PyV1)
  | batchCreatePartition (db name : Str) (inputs : List PartDict)
  | updateTable (db name : Str)
  | deleteTable (db name : Str)
deriving DecidableEq

/-- The Glue data catalog together with the request trace of the current
invocation: table definitions and partition records, both keyed by
(database name, table name). -/
structure CatState where
  tables : List ((Str × Str) × TableDict)
  parts : List ((Str × Str) × PartDict)
  trace : List GlueCall
deriving DecidableEq

/-- Appends one call to the request trace. -/
def traced (e : GlueCall) (st : CatState) : CatState :=
  { st with trace := st.trace ++ [e] }

/-- The partition records with a given (database, table) key, in catalog
order. -/
def partsOfList (l : List ((Str × Str) × PartDict)) (key : Str × Str) :
    List PartDict :=
  l.filterMap (fun e => if e.1 = key then some e.2 else none)

/-- The partition records registered under one table, in catalog order. -/
def partsOf (st : CatState) (db name : Str) : List PartDict :=
  partsOfList st.parts (db, name)

/-- The `Values` entries of a list of partition records. -/
def valuesList (ps : List PartDict) : List PyV1 :=
  ps.filterMap (fun p => dictGet p keyValues)

/-- The partition key-value tuples registered under one table (the
`Values` entry of each record). -/
def valuesOf (st : CatState) (db name : Str) : List PyV1 :=
  valuesList (partsOf st db name)

/-- Lines 11-15 against the in-memory catalog: `get_table` returns the
response `{'Table': ...}` when the table exists; the `except` branch
returns `None` for the `EntityNotFoundException` the service raises when
it does not.  (Transport errors, which the bare `except` also swallows,
are modelled separately by `get_catalog_table_resp`.) -/
def get_catalog_table (st : CatState) (db name : Str) :
    CatState × Option GetTableResponse :=
  (traced (.getTable db name) st,
   (dictGet st.tables (db, name)).map (fun t => ⟨t⟩))

/-- The external data processor (lines 69-89 `read_from_catalog` and the
Glue sink): given a path and a table name it either fails, or yields the
table definition and partition records it registers. -/
abbrev DataProc := Str → Str → Option (TableDict × List PartDict)

/-- The storage descriptor of a table definition (empty when absent). -/
def sdOf (d : TableDict) : SDDict :=
  match dictGet d keySD with
  | some (.dict sd) => sd
  | _ => []

/-- Overrides a table definition's storage-descriptor `Location`. -/
def setLocationField (d : TableDict) (loc : Str) : TableDict :=
  dictSet d keySD (.dict (dictSet (sdOf d) keyLocation (.str loc)))

/-- Modelled from the spec: the sink of `write_parquet` (lines 77-89) is
external code; per section 6 it persists the rows under the given path
and auto-registers the catalog table under the given name, and per the
section 8 scenarios the registered storage location carries a trailing
separator.  A failure of the data processor raises before any catalog
registration. -/
def write_parquet (dp : DataProc) (path db name : Str) (st : CatState) :
    CatState × Option PyErr :=
  let st1 := traced (.writeParquet path db name) st
  match dp path name with
  | none => (st1, some .dataProcessorFailure)
  | some (tdef, ps) =>
    let stored := setLocationField tdef (ensureSlash path)
    let st2 := { st1 with tables := dictSet st1.tables (db, name) stored }
    let st3 := { st2 with parts := st2.parts ++ ps.map (fun p => ((db, name), p)) }
    (st3, none)

/-- `batch_delete_partition` (lines 30-34): removes from the table every
partition record whose `Values` entry occurs in the request (request
entries `{'Values': v}` are represented by their values). -/
def batch_delete_partition (db name : Str) (vals : List PyV1) (st : CatState) :
    CatState :=
  let st1 := traced (.batchDeletePartition db name vals) st
  { st1 with parts := st1.parts.filter (fun e =>
      !(decide (e.1 = (db, name)) &&
        (match dictGet e.2 keyValues with
         | some v => vals.any (fun w => decide (w = v))
         | none => false))) }

/-- The `Values` entries of one batch slice (line 29): a record missing
the key raises `KeyError`. -/
def sliceValues : List PartDict → Except PyErr (List PyV1)
  | [] => Except.ok []
  | p :: rest =>
    match dictGet p keyValues with
    | none => Except.error .keyError
    | some v =>
      match sliceValues rest with
      | Except.error e => Except.error e
      | Except.ok vs => Except.ok (v :: vs)

/-- Issues one `batch_delete_partition` call per 25-record slice of a page
(lines 28-34). -/
def delete_chunks (db name : Str) : List (List PartDict) → CatState →
    CatState × Option PyErr
  | [], st => (st, none)
  | chunk :: rest, st =>
    match sliceValues chunk with
    | Except.error e => (st, some e)
    | Except.ok vals =>
      delete_chunks db name rest (batch_delete_partition db name vals st)

/-- Processes the pages of the delete paginator in order (lines 25-34). -/
def delete_pages (db name : Str) : List (List PartDict) → CatState →
    CatState × Option PyErr
  | [], st => (st, none)
  | page :: rest, st =>
    match delete_chunks db name (chunked 25 page) st with
    | (st1, some e) => (st1, some e)
    | (st1, none) => delete_pages db name rest st1

/-- `delete_partitions` (lines 18-34): paginates the table's partition
records (the paginator is modelled as page-size slices of the records
registered when it is created) and batch-deletes them 25 at a time. -/
def delete_partitions (pageSize : Nat) (db name : Str) (st : CatState) :
    CatState × Option PyErr :=
  let snapshot := partsOf st db name
  let st1 := traced (.getPartitions db name) st
  delete_pages db name (chunked pageSize snapshot) st1

/-- The dict comprehension at lines 50-51: drops the source table's
identity fields from a partition record. -/
def cleanPartition (p : PartDict) : PartDict :=
  p.filter (fun kv => !keyExcluded excludedPartitionKeys kv.1)

/-- Creates the partitions of one `batch_create_partition` request in
order: a request entry without `Values` fails the call, an entry whose
`Values` already exist under the table is skipped (the service reports it
in the response's `Errors` list, which line 54's caller ignores). -/
def create_items (db name : Str) : List PartDict → CatState →
    CatState × Option PyErr
  | [], st => (st, none)
  | p :: rest, st =>
    match dictGet p keyValues with
    | none => (st, some .invalidInput)
    | some v =>
      if (valuesOf st db name).any (fun w => decide (w = v)) then
        create_items db name rest st
      else
        create_items db name rest { st with parts := st.parts ++ [((db, name), p)] }

/-- One `batch_create_partition` call (lines 54-58). -/
def batch_create_partition (db name : Str) (inputs : List PartDict)
    (st : CatState) : CatState × Option PyErr :=
  create_items db name inputs (traced (.batchCreatePartition db name inputs) st)

/-- Processes the pages of the copy paginator in order (lines 45-58):
cleans every record of the page, then issues one create call for the
page. -/
def copy_pages (tdb tname : Str) : List (List PartDict) → CatState →
    CatState × Option PyErr
  | [], st => (st, none)
  | page :: rest, st =>
    match batch_create_partition tdb tname (page.map cleanPartition) st with
    | (st1, some e) => (st1, some e)
    | (st1, none) => copy_pages tdb tname rest st1

/-- `copy_partitions` (lines 37-58): paginates the source table's
partition records with `PageSize` 100 and re-creates each page under the
target table after stripping the source identity fields. -/
def copy_partitions (sdb sname tdb tname : Str) (st : CatState) :
    CatState × Option PyErr :=
  let snapshot := partsOf st sdb sname
  let st1 := traced (.getPartitions sdb sname) st
  copy_pages tdb tname (chunked 100 snapshot) st1

/-- Lines 108-112: the dict comprehension drops the five excluded keys,
`table_input['Name']` is set to the target name, and the nested
`['StorageDescriptor']['Location']` assignment raises when the key is
missing or not a dictionary. -/
def make_table_input (d : TableDict) (name loc : Str) :
    Except PyErr TableDict :=
  let stripped := d.filter (fun kv => !keyExcluded excludedTableKeys kv.1)
  let withName := dictSet stripped keyName (.v0 (.str name))
  match dictGet withName keySD with
  | some (.dict sd) =>
    Except.ok (dictSet withName keySD (.dict (dictSet sd keyLocation (.str loc))))
  | _ => Except.error .typeError

/-- `update_table` (line 117): replaces the definition of the table named
by the input's `Name` entry; the service raises when that table does not
exist or the input has no name. -/
def update_table (db : Str) (input : TableDict) (st : CatState) :
    CatState × Option PyErr :=
  match dictGet input keyName with
  | some (.v0 (.str nm)) =>
    let st1 := traced (.updateTable db nm) st
    if containsKey st1.tables (db, nm) then
      ({ st1 with tables := dictSet st1.tables (db, nm) input }, none)
    else (st1, some .entityNotFound)
  | _ => (st, some .invalidInput)

/-- `delete_table` (line 118): removes the table definition; the service
raises `EntityNotFoundException` when it is absent. -/
def delete_table (db name : Str) (st : CatState) : CatState × Option PyErr :=
  let st1 := traced (.deleteTable db name) st
  if containsKey st1.tables (db, name) then
    ({ st1 with tables := st1.tables.filter (fun kv => decide (kv.1 ≠ (db, name))) }, none)
  else (st1, some .entityNotFound)

/-- The staging table name built at lines 99-101 from the wall-clock
timestamp (passed in as `nowStamp`). -/
def stagingName (output_table nowStamp : Str) : Str :=
  output_table ++ "_version_tmp_".toList ++ nowStamp

/-- `write_versioned_parquet` (lines 92-118), the version-swap
orchestrator: first write when the target is absent, otherwise staging
write, staging fetch, table-input construction, partition reconciliation,
flip, and staging deletion, each uncaught exception aborting the rest. -/
def write_versioned_parquet (dp : DataProc) (delPageSize : Nat)
    (output_path db output_table nowStamp : Str) (st : CatState) :
    CatState × Option PyErr :=
  match get_catalog_table st db output_table with
  | (st1, none) =>
    write_parquet dp (output_path ++ '/' :: "version_0".toList) db output_table st1
  | (st1, some resp) =>
    let tmpTable := stagingName output_table nowStamp
    match calculate_next_location resp with
    | Except.error e => (st1, some e)
    | Except.ok nextLoc =>
      match write_parquet dp nextLoc db tmpTable st1 with
      | (st2, some e) => (st2, some e)
      | (st2, none) =>
        match get_catalog_table st2 db tmpTable with
        | (st3, none) => (st3, some .typeError)
        | (st3, some sresp) =>
          match make_table_input sresp.tableEntry output_table nextLoc with
          | Except.error e => (st3, some e)
          | Except.ok tableInput =>
            match delete_partitions delPageSize db output_table st3 with
            | (st4, some e) => (st4, some e)
            | (st4, none) =>
              match copy_partitions db tmpTable db output_table st4 with
              | (st5, some e) => (st5, some e)
              | (st5, none) =>
                match update_table db tableInput st5 with
                | (st6, some e) => (st6, some e)
                | (st6, none) => delete_table db tmpTable st6

/-- Raw outcome of one `glue_client.get_table` call: the table, or one of
the exceptions the service can raise. -/
inductive GlueCallErr where
  | entityNotFound
  | transportError
deriving DecidableEq

/-- Lines 11-15 over the raw call outcome: the bare `except` turns every
exception into `None`, so absence and transport failure are
indistinguishable to the caller. -/
def get_catalog_table_resp (resp : Except GlueCallErr TableDict) :
    Option TableDict :=
  match resp with
  | Except.ok t => some t
  | Except.error _ => none

/-- The ten decimal digit characters. -/
def digitChars : List Char := ['0', '1', '2', '3', '4', '5', '6', '7', '8', '9']

/-- Whether a recorded call is a `batch_delete_partition` request. -/
def GlueCall.isBatchDelete : GlueCall → Bool
  | .batchDeletePartition .. => true
  | _ => false

/-- Whether a recorded call is a `delete_table` request. -/
def GlueCall.isDeleteTable : GlueCall → Bool
  | .deleteTable .. => true
  | _ => false

/-- Whether a recorded call is an `update_table` request. -/
def GlueCall.isUpdateTable : GlueCall → Bool
  | .updateTable .. => true
  | _ => false

/-- Sample target definition used by concrete witness instances. -/
def sampleTargetDef : TableDict :=
  [(keySD, PyV1.dict [(keyLocation, PyV0.str "mydb/tbl/version_3/".toList),
     ("Columns".toList, PyV0.atom 3)]), (keyName, PyV1.v0 (.str "tbl".toList))]

/-- Sample staging definition registered by the sample data processor. -/
def sampleStagingDef : TableDict :=
  [(keySD, PyV1.dict [("Columns".toList, PyV0.atom 9)]),
   ("CreateTime".toList, PyV1.v0 (.atom 1)),
   ("DatabaseName".toList, PyV1.v0 (.str "db".toList)),
   (keyName, PyV1.v0 (.str "stg".toList))]

/-- Sample one-key partition record. -/
def samplePart (c : Char) : PartDict := [(keyValues, PyV1.v0 (.strList [[c]]))]

/-- Sample state for reconciliation witnesses: two target partitions and
three staging partitions, two of which carry identity fields. -/
def sampleReconState : CatState :=
  ⟨[], [(("db".toList, "tgt".toList), samplePart 'x'),
    (("db".toList, "tgt".toList), samplePart 'y'),
    (("db".toList, "stg".toList), [(keyValues, PyV1.v0 (.strList [['a']])),
      ("DatabaseName".toList, PyV1.v0 (.str "db".toList))]),
    (("db".toList, "stg".toList), [(keyValues, PyV1.v0 (.strList [['b']])),
      ("CreationTime".toList, PyV1.v0 (.atom 9))]),
    (("db".toList, "stg".toList), samplePart 'c')], []⟩

/-- Sample state for overwrite witnesses: one registered target table with
one partition. -/
def sampleOverwriteState : CatState :=
  ⟨[(("db".toList, "tbl".toList), sampleTargetDef)],
   [(("db".toList, "tbl".toList), samplePart 'z')], []⟩

/-- Sample data processor that always succeeds. -/
def sampleDp : DataProc :=
  fun _ _ => some (sampleStagingDef, [samplePart 'a', samplePart 'b'])

/-! ### Lemmas about splitting and joining paths -/

theorem splitOnSlash_ne_nil (l : List Char) : splitOnSlash l ≠ [] := by
  induction l with
  | nil => simp [splitOnSlash]
  | cons c rest ih =>
    simp only [splitOnSlash]
    cases h : splitOnSlash rest with
    | nil => simp
    | cons g gs =>
      by_cases hc : c = '/' <;> simp [hc]

theorem noSlash_mem_splitOnSlash (l : List Char) :
    ∀ g ∈ splitOnSlash l, '/' ∉ g := by
  induction l with
  | nil => intro g hg; simp [splitOnSlash] at hg; simp [hg]
  | cons c rest ih =>
    intro g hg
    simp only [splitOnSlash] at hg
    cases h : splitOnSlash rest with
    | nil => exact absurd h (splitOnSlash_ne_nil rest)
    | cons g0 gs =>
      rw [h] at hg
      by_cases hc : c = '/'
      · simp [hc] at hg
        rcases hg with hg | hg | hg
        · simp [hg]
        · exact ih g (by rw [h]; simp [hg])
        · exact ih g (by rw [h]; simp [hg])
      · simp [hc] at hg
        rcases hg with hg | hg
        · subst hg
          intro hmem
          rcases List.mem_cons.mp hmem with hrfl | hmem0
          · exact hc hrfl.symm
          · exact ih g0 (by rw [h]; simp) hmem0
        · exact ih g (by rw [h]; simp [hg])

theorem splitOnSlash_append_slash (x y : List Char) :
    splitOnSlash (x ++ '/' :: y) = splitOnSlash x ++ splitOnSlash y := by
  induction x with
  | nil =>
    simp only [List.nil_append, splitOnSlash]
    cases h : splitOnSlash y with
    | nil => exact absurd h (splitOnSlash_ne_nil y)
    | cons g gs => simp
  | cons c rest ih =>
    simp only [List.cons_append, splitOnSlash]
    cases h : splitOnSlash rest with
    | nil => exact absurd h (splitOnSlash_ne_nil rest)
    | cons g gs =>
      by_cases hc : c = '/' <;> simp [hc, ih, h]

theorem splitOnSlash_noSlash (l : List Char) (h : '/' ∉ l) :
    splitOnSlash l = [l] := by
  induction l with
  | nil => simp [splitOnSlash]
  | cons c rest ih =>
    simp only [List.mem_cons, not_or] at h
    simp only [splitOnSlash]
    rw [ih h.2]
    have hc : ¬c = '/' := fun hc => h.1 hc.symm
    simp [hc]

theorem joinSlash_concat_empty (gs : List (List Char)) (x : List Char) :
    joinSlash (gs ++ [x, []]) = joinSlash (gs ++ [x]) ++ ['/'] := by
  induction gs with
  | nil => simp [joinSlash]
  | cons g gs ih =>
    cases gs with
    | nil => simp [joinSlash]
    | cons g2 gs2 =>
      simp only [List.cons_append, joinSlash, List.append_eq] at ih ⊢
      rw [ih]
      simp

theorem splitOnSlash_joinSlash (gs : List (List Char)) (hne : gs ≠ [])
    (hfree : ∀ g ∈ gs, '/' ∉ g) : splitOnSlash (joinSlash gs) = gs := by
  induction gs with
  | nil => exact absurd rfl hne
  | cons g gs ih =>
    cases gs with
    | nil => exact splitOnSlash_noSlash g (hfree g (by simp))
    | cons g2 gs2 =>
      have hj : joinSlash (g :: g2 :: gs2) = g ++ '/' :: joinSlash (g2 :: gs2) := by
        simp [joinSlash]
      rw [hj, splitOnSlash_append_slash,
        splitOnSlash_noSlash g (hfree g (by simp)),
        ih (by simp) (fun g' hg' => hfree g' (by simp [hg']))]
      simp

theorem getD_append_pair (pre : List α) (a b d : α) :
    (pre ++ [a, b]).getD pre.length d = a := by
  induction pre with
  | nil => rfl
  | cons x xs ih => simpa using ih

theorem take_append_pair (pre : List α) (a b : α) :
    (pre ++ [a, b]).take pre.length = pre := by
  induction pre with
  | nil => rfl
  | cons x xs ih =>
    simp only [List.cons_append, List.length_cons, List.take_succ_cons, ih]

/-! ### Lemmas about the replace-all model -/

theorem stripGo_no_v (fuel : Nat) (s : List Char) (h : ∀ c ∈ s, c ≠ 'v') :
    stripGo fuel s = s := by
  induction fuel generalizing s with
  | zero => cases s <;> rfl
  | succ fuel ih =>
    cases s with
    | nil => rfl
    | cons c rest =>
      have hc : c ≠ 'v' := h c (by simp)
      have hvc : decide ('v' = c) = false := by
        simp only [decide_eq_false_iff_not]
        exact fun hvc => hc hvc.symm
      have hpre : leadsWith verChars (c :: rest) = false := by
        show leadsWith ('v' :: "ersion_".toList) (c :: rest) = false
        simp [leadsWith, hvc]
      simp only [stripGo, hpre]
      simp only [Bool.false_eq_true, if_false]
      rw [ih rest (fun c' hc' => h c' (by simp [hc']))]

theorem leadsWith_append (p r : List Char) : leadsWith p (p ++ r) = true := by
  induction p with
  | nil => rfl
  | cons c cs ih => simp [leadsWith, ih]

theorem stripVersionAll_version (r : List Char) (h : ∀ c ∈ r, c ≠ 'v') :
    stripVersionAll (verChars ++ r) = r := by
  have hlen : (verChars ++ r).length = 8 + r.length := by
    simp [verChars]
    omega
  have h8 : 8 + r.length = (7 + r.length) + 1 := by omega
  rw [stripVersionAll, hlen, h8]
  show stripGo ((7 + r.length) + 1) (verChars ++ r) = r
  have hv : verChars ++ r = 'v' :: ("ersion_".toList ++ r) := by rfl
  rw [hv]
  simp only [stripGo]
  rw [show leadsWith verChars ('v' :: ("ersion_".toList ++ r)) = true from
    leadsWith_append verChars r]
  simp only [if_true]
  have hdrop : ('v' :: ("ersion_".toList ++ r)).drop 8 = r := by
    simp [String.toList]
  rw [hdrop]
  exact stripGo_no_v _ r h

/-! ### Lemmas about decimal rendering and parsing -/

theorem digitChar_mem (d : Nat) : digitChar d ∈ digitChars := by
  rcases d with _ | _ | _ | _ | _ | _ | _ | _ | _ | d <;> simp [digitChar, digitChars]

theorem digitChars_props (c : Char) (h : c ∈ digitChars) :
    c ≠ 'v' ∧ c ≠ '/' ∧ c ≠ '-' ∧ c ≠ '+' ∧ c.isWhitespace = false ∧
      c.isDigit = true := by
  fin_cases h <;> exact ⟨by decide, by decide, by decide, by decide, by decide, by decide⟩

theorem charVal_digitChar (d : Nat) (h : d < 10) : charVal (digitChar d) = d := by
  interval_cases d <;> rfl

theorem natDigits_mem (fuel n : Nat) : ∀ c ∈ natDigits fuel n, c ∈ digitChars := by
  induction fuel generalizing n with
  | zero => simp [natDigits]
  | succ fuel ih =>
    intro c hc
    simp only [natDigits] at hc
    by_cases hn : n < 10
    · simp [hn] at hc
      subst hc
      exact digitChar_mem n
    · simp [hn] at hc
      rcases hc with hc | hc
      · exact ih _ c hc
      · subst hc
        exact digitChar_mem _

theorem natDigits_ne_nil (fuel n : Nat) (h : 0 < fuel) : natDigits fuel n ≠ [] := by
  cases fuel with
  | zero => omega
  | succ fuel =>
    simp only [natDigits]
    by_cases hn : n < 10 <;> simp [hn]

theorem parseDigits_all_digits (ds : List Char) (a : Nat)
    (h : ∀ c ∈ ds, c.isDigit = true) :
    parseDigits a ds = some (ds.foldl (fun x c => x * 10 + charVal c) a) := by
  induction ds generalizing a with
  | nil => rfl
  | cons c rest ih =>
    have hc := h c (by simp)
    rw [parseDigits.eq_def]
    simp only [hc, if_true, List.foldl]
    exact ih _ (fun c' h' => h c' (by simp [h']))

theorem natDigits_foldl (fuel n a : Nat) (h : n < fuel) :
    (natDigits fuel n).foldl (fun x c => x * 10 + charVal c) a
      = a * 10 ^ (natDigits fuel n).length + n := by
  induction fuel generalizing n a with
  | zero => omega
  | succ fuel ih =>
    by_cases hn : n < 10
    · simp only [natDigits, hn, if_true, List.foldl, List.length_cons,
        List.length_nil, charVal_digitChar n hn]
      ring_nf
    · have h10 : n / 10 < fuel := by
        have hlt : n / 10 < n := Nat.div_lt_self (by omega) (by norm_num)
        omega
      simp only [natDigits, hn, if_false]
      rw [List.foldl_append, ih (n / 10) a h10]
      simp only [List.foldl, List.length_append, List.length_cons, List.length_nil,
        charVal_digitChar _ (Nat.mod_lt n (by norm_num))]
      rw [pow_succ]
      generalize (10 : Nat) ^ (natDigits fuel (n / 10)).length = P
      ring_nf
      omega

theorem pyNat_natRepr (n : Nat) : pyNat (natRepr n) = some n := by
  have hne : natRepr n ≠ [] := natDigits_ne_nil _ _ (by omega)
  have hdig : ∀ c ∈ natRepr n, c.isDigit = true := fun c hc =>
    (digitChars_props c (natDigits_mem _ _ c hc)).2.2.2.2.2
  cases hrepr : natRepr n with
  | nil => exact absurd hrepr hne
  | cons c rest =>
    have hc : c.isDigit = true := hdig c (by rw [hrepr]; simp)
    have hfold : (c :: rest).foldl (fun x c => x * 10 + charVal c) 0 = n := by
      rw [← hrepr, natRepr, natDigits_foldl (n + 1) n 0 (by omega)]
      simp
    simp only [List.foldl, Nat.zero_mul, Nat.zero_add] at hfold
    simp only [pyNat, hc, if_true]
    rw [parseDigits_all_digits rest (charVal c)
      (fun c' h' => hdig c' (by rw [hrepr]; simp [h']))]
    rw [hfold]

theorem dropWhile_all_false (p : Char → Bool) (l : List Char)
    (h : ∀ c ∈ l, p c = false) : l.dropWhile p = l := by
  cases l with
  | nil => rfl
  | cons c rest => simp [List.dropWhile, h c (by simp)]

theorem trimSpaces_id (l : List Char) (h : ∀ c ∈ l, c.isWhitespace = false) :
    trimSpaces l = l := by
  unfold trimSpaces
  rw [dropWhile_all_false _ _ h,
    dropWhile_all_false _ _ (fun c hc => h c (List.mem_reverse.mp hc))]
  exact List.reverse_reverse l

theorem pyInt_natRepr (n : Nat) : pyInt (natRepr n) = some (n : Int) := by
  have hmem : ∀ c ∈ natRepr n, c ∈ digitChars := natDigits_mem _ _
  have htrim : trimSpaces (natRepr n) = natRepr n :=
    trimSpaces_id _ (fun c hc => (digitChars_props c (hmem c hc)).2.2.2.2.1)
  cases hrepr : natRepr n with
  | nil => exact absurd hrepr (natDigits_ne_nil _ _ (by omega))
  | cons c rest =>
    have hprops := digitChars_props c (hmem c (by rw [hrepr]; simp))
    rw [hrepr] at htrim
    have hpn : pyNat (c :: rest) = some n := by rw [← hrepr]; exact pyNat_natRepr n
    simp only [pyInt, hrepr, htrim]
    split
    · rename_i rest1 heq
      exact absurd (List.cons.inj heq).1 hprops.2.2.1
    · rename_i rest1 heq
      exact absurd (List.cons.inj heq).1 hprops.2.2.2.1
    · rw [hpn]
      rfl

theorem pyIntRepr_mem (i : Int) : ∀ c ∈ pyIntRepr i, c = '-' ∨ c ∈ digitChars := by
  intro c hc
  unfold pyIntRepr at hc
  by_cases hneg : i < 0
  · simp only [hneg, if_true, List.mem_cons] at hc
    rcases hc with hc | hc
    · exact Or.inl hc
    · exact Or.inr (natDigits_mem _ _ c hc)
  · simp only [hneg, if_false] at hc
    exact Or.inr (natDigits_mem _ _ c hc)

theorem pyIntRepr_no_v (i : Int) : ∀ c ∈ pyIntRepr i, c ≠ 'v' := by
  intro c hc
  rcases pyIntRepr_mem i c hc with hc' | hc'
  · subst hc'; decide
  · exact (digitChars_props c hc').1

theorem pyIntRepr_no_slash (i : Int) : '/' ∉ pyIntRepr i := by
  intro hc
  rcases pyIntRepr_mem i '/' hc with hc' | hc'
  · exact absurd hc' (by decide)
  · exact absurd hc' (by decide)

theorem pyInt_pyIntRepr (i : Int) : pyInt (pyIntRepr i) = some i := by
  by_cases hneg : i < 0
  · have hmem : ∀ c ∈ natRepr i.natAbs, c ∈ digitChars := natDigits_mem _ _
    have htrim : trimSpaces ('-' :: natRepr i.natAbs) = '-' :: natRepr i.natAbs := by
      refine trimSpaces_id _ ?_
      intro c hc
      rcases List.mem_cons.mp hc with hc | hc
      · subst hc; decide
      · exact (digitChars_props c (hmem c hc)).2.2.2.2.1
    have habs : ((i.natAbs : Nat) : Int) = -i := by omega
    simp only [pyIntRepr, hneg, if_true, pyInt, htrim, pyNat_natRepr, Option.map_some]
    simp [habs]
  · simp only [pyIntRepr, hneg, if_false]
    rw [pyInt_natRepr i.toNat]
    congr 1
    omega

/-! ### The next-location computation on well-formed inputs -/

theorem stripVersionAll_repr (n : Int) :
    stripVersionAll (verChars ++ pyIntRepr n) = pyIntRepr n :=
  stripVersionAll_version _ (pyIntRepr_no_v n)

theorem verSeg_no_slash (n : Int) : '/' ∉ verChars ++ pyIntRepr n := by
  intro h
  rcases List.mem_append.mp h with h | h
  · revert h
    decide
  · exact pyIntRepr_no_slash n h

theorem next_location_of_versioned (loc : Str) (pre : List Str) (n : Int)
    (last : Str)
    (hsplit : splitOnSlash loc = pre ++ [verChars ++ pyIntRepr n, last]) :
    next_location_of loc =
      Except.ok (joinSlash (pre ++ [verChars ++ pyIntRepr (n + 1), []])) := by
  simp only [next_location_of]
  rw [hsplit]
  have hlen : (pre ++ [verChars ++ pyIntRepr n, last]).length = pre.length + 2 := by
    simp
  rw [hlen]
  have h2 : 2 ≤ pre.length + 2 := by omega
  rw [if_pos h2]
  have hsub : pre.length + 2 - 2 = pre.length := by omega
  rw [hsub, getD_append_pair, take_append_pair, stripVersionAll_repr,
    pyInt_pyIntRepr]

theorem next_location_out_split (pre : List Str) (n : Int)
    (hfree : ∀ g ∈ pre, '/' ∉ g) :
    splitOnSlash (joinSlash (pre ++ [verChars ++ pyIntRepr (n + 1), []]))
      = pre ++ [verChars ++ pyIntRepr (n + 1), []] := by
  refine splitOnSlash_joinSlash _ (by simp) ?_
  intro g hg
  rcases List.mem_append.mp hg with hg | hg
  · exact hfree g hg
  · rcases List.mem_cons.mp hg with hg | hg
    · subst hg
      exact verSeg_no_slash (n + 1)
    · simp at hg
      simp [hg]

theorem joinSlash_trailing (pre : List Str) (x : Str) :
    (joinSlash (pre ++ [x, []])).getLast? = some '/' := by
  rw [joinSlash_concat_empty]
  exact List.getLast?_concat _

theorem calculate_eq_next (resp : GetTableResponse) (loc : Str)
    (h : tableLocation resp.tableEntry = some loc) :
    calculate_next_location resp = next_location_of loc := by
  unfold tableLocation at h
  cases hsd : dictGet resp.tableEntry keySD with
  | none => rw [hsd] at h; simp at h
  | some v =>
    rw [hsd] at h
    cases v with
    | v0 p => simp at h
    | dict sd =>
      have h2 : (match dictGet sd keyLocation with
          | some (PyV0.str l) => some l
          | _ => none) = some loc := h
      clear h
      rename' h2 => h
      cases hl : dictGet sd keyLocation with
      | none => rw [hl] at h; simp at h
      | some w =>
        rw [hl] at h
        cases w with
        | str l =>
          simp only [Option.some.injEq] at h
          subst h
          simp [calculate_next_location, hsd, hl]
        | atom k => simp at h
        | strList s => simp at h

/-! ### Association-list lemmas -/

theorem containsKey_cons_false [DecidableEq κ] {k1 : κ} {v1 : α} {rest : List (κ × α)}
    {key : κ} (h : containsKey ((k1, v1) :: rest) key = false) :
    k1 ≠ key ∧ containsKey rest key = false := by
  simp only [containsKey, List.any_cons, Bool.or_eq_false_iff,
    decide_eq_false_iff_not] at h
  exact ⟨h.1, by simp [containsKey, h.2]⟩

theorem dictGet_append_right [DecidableEq κ] (d e : List (κ × α)) (key : κ)
    (h : dictGet d key = none) : dictGet (d ++ e) key = dictGet e key := by
  induction d with
  | nil => rfl
  | cons kv rest ih =>
    obtain ⟨k1, v1⟩ := kv
    simp only [dictGet] at h
    by_cases hk : k1 = key
    · simp [hk] at h
    · rw [if_neg hk] at h
      show dictGet ((k1, v1) :: (rest ++ e)) key = dictGet e key
      simp only [dictGet, if_neg hk]
      exact ih h

theorem dictGet_none_of_not_contains [DecidableEq κ] (d : List (κ × α)) (key : κ)
    (h : containsKey d key = false) : dictGet d key = none := by
  induction d with
  | nil => rfl
  | cons kv rest ih =>
    obtain ⟨k1, v1⟩ := kv
    obtain ⟨h1, h2⟩ := containsKey_cons_false h
    simp only [dictGet, if_neg h1]
    exact ih h2

theorem dictGet_replaceKey_self [DecidableEq κ] (d : List (κ × α)) (key : κ)
    (v : α) (h : containsKey d key = true) :
    dictGet (replaceKey d key v) key = some v := by
  induction d with
  | nil => simp [containsKey] at h
  | cons kv rest ih =>
    obtain ⟨k1, v1⟩ := kv
    by_cases hk : k1 = key
    · rw [replaceKey, if_pos hk]
      simp [dictGet]
    · have h2 : containsKey rest key = true := by
        simp only [containsKey, List.any_cons, decide_eq_true_eq,
          Bool.or_eq_true] at h
        rcases h with h | h
        · exact absurd h hk
        · simpa [containsKey] using h
      rw [replaceKey, if_neg hk]
      simp only [dictGet, if_neg hk]
      exact ih h2

theorem dictGet_dictSet_self [DecidableEq κ] (d : List (κ × α)) (key : κ) (v : α) :
    dictGet (dictSet d key v) key = some v := by
  unfold dictSet
  by_cases h : containsKey d key
  · rw [if_pos h]
    exact dictGet_replaceKey_self d key v h
  · rw [if_neg h]
    rw [dictGet_append_right d _ key
      (dictGet_none_of_not_contains d key (by simpa using h))]
    simp [dictGet]

theorem dictGet_replaceKey_ne [DecidableEq κ] (d : List (κ × α)) (key key2 : κ)
    (v : α) (h : key2 ≠ key) :
    dictGet (replaceKey d key v) key2 = dictGet d key2 := by
  have h2 : ¬key = key2 := fun he => h he.symm
  induction d with
  | nil => rfl
  | cons kv rest ih =>
    obtain ⟨k1, v1⟩ := kv
    by_cases hk : k1 = key
    · rw [replaceKey, if_pos hk]
      simp only [dictGet, if_neg h2, if_neg (hk ▸ h2 : ¬k1 = key2)]
      exact ih
    · rw [replaceKey, if_neg hk]
      simp only [dictGet]
      by_cases hk2 : k1 = key2 <;> simp [hk2, ih]

theorem dictGet_append_single_ne [DecidableEq κ] (d : List (κ × α))
    (key key2 : κ) (v : α) (h : key2 ≠ key) :
    dictGet (d ++ [(key, v)]) key2 = dictGet d key2 := by
  have h2 : ¬key = key2 := fun he => h he.symm
  induction d with
  | nil => simp [dictGet, h2]
  | cons kv rest ih =>
    obtain ⟨k1, v1⟩ := kv
    by_cases hk : k1 = key2 <;> simp [dictGet, hk, ih]

theorem dictGet_dictSet_ne [DecidableEq κ] (d : List (κ × α)) (key key2 : κ)
    (v : α) (h : key2 ≠ key) :
    dictGet (dictSet d key v) key2 = dictGet d key2 := by
  unfold dictSet
  by_cases hc : containsKey d key
  · rw [if_pos hc]
    exact dictGet_replaceKey_ne d key key2 v h
  · rw [if_neg hc]
    exact dictGet_append_single_ne d key key2 v h
/-! ### Lookup through key-exclusion filters and rebinding -/

theorem keyExcluded_iff [DecidableEq κ] (ks : List κ) (k : κ) :
    keyExcluded ks k = true ↔ k ∈ ks := by
  simp only [keyExcluded, List.any_eq_true, decide_eq_true_eq]
  constructor
  · rintro ⟨k2, hk2, rfl⟩
    exact hk2
  · intro h
    exact ⟨k, h, rfl⟩

theorem dictGet_filter_not_mem [DecidableEq κ] (d : List (κ × α)) (ks : List κ)
    (key : κ) :
    dictGet (d.filter (fun kv => !keyExcluded ks kv.1)) key
      = if keyExcluded ks key = true then none else dictGet d key := by
  induction d with
  | nil => simp [dictGet]
  | cons kv rest ih =>
    obtain ⟨k1, v1⟩ := kv
    rw [List.filter_cons]
    by_cases hmem : keyExcluded ks k1 = true
    · rw [if_neg (by simp [hmem])]
      rw [ih]
      by_cases hkey : k1 = key
      · subst hkey
        simp [hmem, dictGet]
      · simp only [dictGet, if_neg hkey]
    · have hmem2 : keyExcluded ks k1 = false := by simpa using hmem
      rw [if_pos (by simp [hmem2])]
      by_cases hkey : k1 = key
      · subst hkey
        simp [dictGet, hmem2]
      · simp only [dictGet, if_neg hkey]
        exact ih

theorem containsKey_eq_isSome [DecidableEq κ] (d : List (κ × α)) (key : κ) :
    containsKey d key = (dictGet d key).isSome := by
  induction d with
  | nil => rfl
  | cons kv rest ih =>
    obtain ⟨k1, v1⟩ := kv
    by_cases hk : k1 = key
    · simp [containsKey, dictGet, hk]
    · simp only [containsKey, dictGet, List.any_cons, if_neg hk,
        decide_eq_false hk, Bool.false_or]
      simpa [containsKey] using ih

theorem containsKey_dictSet_self [DecidableEq κ] (d : List (κ × α)) (key : κ)
    (v : α) : containsKey (dictSet d key v) key = true := by
  rw [containsKey_eq_isSome, dictGet_dictSet_self]
  rfl

theorem containsKey_dictSet_of [DecidableEq κ] (d : List (κ × α)) (key key2 : κ)
    (v : α) (h : containsKey d key2 = true) :
    containsKey (dictSet d key v) key2 = true := by
  rw [containsKey_eq_isSome] at h ⊢
  by_cases hk : key2 = key
  · subst hk
    rw [dictGet_dictSet_self]
    rfl
  · rw [dictGet_dictSet_ne _ _ _ _ hk]
    exact h

/-! ### Partition-list bookkeeping -/

theorem partsOfList_append (l1 l2 : List ((Str × Str) × PartDict))
    (key : Str × Str) :
    partsOfList (l1 ++ l2) key = partsOfList l1 key ++ partsOfList l2 key := by
  simp [partsOfList, List.filterMap_append]

theorem partsOfList_map_self (ps : List PartDict) (key : Str × Str) :
    partsOfList (ps.map (fun p => (key, p))) key = ps := by
  induction ps with
  | nil => rfl
  | cons p rest ih => simp [partsOfList, List.filterMap_cons] at ih ⊢; exact ih

theorem partsOfList_map_ne (ps : List PartDict) (key key2 : Str × Str)
    (h : key2 ≠ key) :
    partsOfList (ps.map (fun p => (key, p))) key2 = [] := by
  induction ps with
  | nil => rfl
  | cons p rest ih =>
    simp only [partsOfList, List.map_cons, List.filterMap_cons] at ih ⊢
    rw [if_neg (fun he => h he.symm)]
    exact ih

theorem partsOfList_nil_of (l : List ((Str × Str) × PartDict)) (key : Str × Str)
    (h : ∀ e ∈ l, e.1 ≠ key) : partsOfList l key = [] := by
  induction l with
  | nil => rfl
  | cons e rest ih =>
    simp only [partsOfList, List.filterMap_cons]
    rw [if_neg (h e (by simp))]
    exact ih (fun e2 he2 => h e2 (by simp [he2]))

theorem partsOfList_filter_preserve (l : List ((Str × Str) × PartDict))
    (q : (Str × Str) × PartDict → Bool) (key : Str × Str)
    (h : ∀ e ∈ l, e.1 = key → q e = true) :
    partsOfList (l.filter q) key = partsOfList l key := by
  induction l with
  | nil => rfl
  | cons e rest ih =>
    have ih2 := ih (fun e2 he2 hk => h e2 (by simp [he2]) hk)
    rw [List.filter_cons]
    by_cases hq : q e = true
    · rw [if_pos hq]
      simp only [partsOfList, List.filterMap_cons] at ih2 ⊢
      by_cases hk : e.1 = key <;> simp [hk, ih2]
    · rw [if_neg hq]
      have hk : e.1 ≠ key := fun hk2 => hq (h e (by simp) hk2)
      simp only [partsOfList, List.filterMap_cons]
      rw [if_neg hk]
      exact ih2

theorem partsOfList_mem_of_filter (l : List ((Str × Str) × PartDict))
    (q : (Str × Str) × PartDict → Bool) (key : Str × Str) (p : PartDict)
    (h : p ∈ partsOfList (l.filter q) key) : p ∈ partsOfList l key := by
  induction l with
  | nil => simp [partsOfList] at h
  | cons e rest ih =>
    rw [List.filter_cons] at h
    simp only [partsOfList, List.filterMap_cons]
    by_cases hq : q e = true
    · rw [if_pos hq] at h
      simp only [partsOfList, List.filterMap_cons] at h
      by_cases hk : e.1 = key
      · rw [if_pos hk] at h ⊢
        rcases List.mem_cons.mp h with h | h
        · rw [h]
          exact List.mem_cons_self _ _
        · exact List.mem_cons_of_mem _ (ih h)
      · rw [if_neg hk] at h ⊢
        exact ih h
    · rw [if_neg hq] at h
      by_cases hk : e.1 = key
      · rw [if_pos hk]
        exact List.mem_cons_of_mem _ (ih h)
      · rw [if_neg hk]
        exact ih h

theorem valuesList_append (a b : List PartDict) :
    valuesList (a ++ b) = valuesList a ++ valuesList b := by
  simp [valuesList, List.filterMap_append]

/-! ### Chunking covers every element exactly once -/

theorem chunkedGo_flatten (size fuel : Nat) (l : List α) (hf : l.length ≤ fuel) :
    (chunkedGo size fuel l).flatten = l := by
  induction fuel generalizing l with
  | zero =>
    cases l with
    | nil => rfl
    | cons x xs => simp at hf
  | succ fuel ih =>
    cases l with
    | nil => rfl
    | cons x xs =>
      simp only [List.length_cons] at hf
      simp only [chunkedGo, List.flatten_cons]
      rw [ih (xs.drop (size - 1)) (by simp only [List.length_drop]; omega)]
      simp [List.take_append_drop]

theorem chunked_flatten (size : Nat) (l : List α) (hs : size ≠ 0) :
    (chunked size l).flatten = l := by
  unfold chunked
  rw [if_neg hs]
  exact chunkedGo_flatten size l.length l (le_refl _)

/-! ### The table input constructed for the flip -/

theorem make_table_input_eq (d : TableDict) (name loc : Str) (sd : SDDict)
    (hsd : dictGet d keySD = some (.dict sd)) :
    make_table_input d name loc = Except.ok
      (dictSet (dictSet (d.filter (fun kv => !keyExcluded excludedTableKeys kv.1))
        keyName (.v0 (.str name))) keySD
        (.dict (dictSet sd keyLocation (.str loc)))) := by
  have h1 : dictGet (dictSet
      (d.filter (fun kv => !keyExcluded excludedTableKeys kv.1))
      keyName (PyV1.v0 (.str name))) keySD = some (.dict sd) := by
    rw [dictGet_dictSet_ne _ _ _ _ (by decide),
      dictGet_filter_not_mem d excludedTableKeys keySD, if_neg (by decide)]
    exact hsd
  simp only [make_table_input, h1]

/-! ### Equations for the catalog operations -/

theorem get_catalog_table_eq (st : CatState) (db name : Str) :
    get_catalog_table st db name =
      (traced (.getTable db name) st,
       (dictGet st.tables (db, name)).map (fun t => ⟨t⟩)) := rfl

theorem write_parquet_ok (dp : DataProc) (path db name : Str) (st : CatState)
    (tdef : TableDict) (ps : List PartDict)
    (hdp : dp path name = some (tdef, ps)) :
    write_parquet dp path db name st =
      ({ tables := dictSet st.tables (db, name)
            (setLocationField tdef (ensureSlash path)),
         parts := st.parts ++ ps.map (fun p => ((db, name), p)),
         trace := st.trace ++ [.writeParquet path db name] }, none) := by
  simp [write_parquet, hdp, traced]

theorem write_parquet_fail (dp : DataProc) (path db name : Str) (st : CatState)
    (hdp : dp path name = none) :
    write_parquet dp path db name st =
      (traced (.writeParquet path db name) st, some .dataProcessorFailure) := by
  simp [write_parquet, hdp]

theorem update_table_ok (db : Str) (input : TableDict) (st : CatState) (nm : Str)
    (hn : dictGet input keyName = some (.v0 (.str nm)))
    (hc : containsKey st.tables (db, nm) = true) :
    update_table db input st =
      ({ st with tables := dictSet st.tables (db, nm) input,
                 trace := st.trace ++ [.updateTable db nm] }, none) := by
  simp [update_table, hn, traced, hc]

theorem delete_table_ok (db name : Str) (st : CatState)
    (hc : containsKey st.tables (db, name) = true) :
    delete_table db name st =
      ({ st with tables := st.tables.filter (fun kv => decide (kv.1 ≠ (db, name))),
                 trace := st.trace ++ [.deleteTable db name] }, none) := by
  simp [delete_table, traced, hc]

theorem dictGet_filter_ne_key [DecidableEq κ] (l : List (κ × α)) (key0 key : κ)
    (h : key ≠ key0) :
    dictGet (l.filter (fun kv => decide (kv.1 ≠ key0))) key = dictGet l key := by
  induction l with
  | nil => rfl
  | cons kv rest ih =>
    obtain ⟨k1, v1⟩ := kv
    rw [List.filter_cons]
    by_cases hk0 : k1 = key0
    · rw [if_neg (by simp [hk0])]
      rw [ih]
      have hk : ¬k1 = key := fun he => h (he ▸ hk0 ▸ rfl)
      simp [dictGet, hk]
    · rw [if_pos (by simp [hk0])]
      by_cases hk : k1 = key
      · simp [dictGet, hk]
      · simp only [dictGet, if_neg hk]
        exact ih

theorem dictGet_filter_self_key [DecidableEq κ] (l : List (κ × α)) (key0 : κ) :
    dictGet (l.filter (fun kv => decide (kv.1 ≠ key0))) key0 = none := by
  induction l with
  | nil => rfl
  | cons kv rest ih =>
    obtain ⟨k1, v1⟩ := kv
    rw [List.filter_cons]
    by_cases hk0 : k1 = key0
    · rw [if_neg (by simp [hk0])]
      exact ih
    · rw [if_pos (by simp [hk0])]
      simp only [dictGet, if_neg hk0]
      exact ih

theorem stagingName_ne (t s : Str) : stagingName t s ≠ t := by
  intro h
  have hlen := congrArg List.length h
  simp [stagingName] at hlen

theorem cleanPartition_values (p : PartDict) :
    dictGet (cleanPartition p) keyValues = dictGet p keyValues := by
  unfold cleanPartition
  rw [dictGet_filter_not_mem p excludedPartitionKeys keyValues,
    if_neg (by decide)]

/-! ### Frame lemmas: the reconciliation loops never touch table
definitions and never issue update or delete-table calls -/

theorem batch_delete_partition_tables (db name : Str) (vals : List PyV1)
    (st : CatState) : (batch_delete_partition db name vals st).tables = st.tables := rfl

theorem batch_delete_partition_trace (db name : Str) (vals : List PyV1)
    (st : CatState) : (batch_delete_partition db name vals st).trace
      = st.trace ++ [.batchDeletePartition db name vals] := rfl

theorem delete_chunks_frame (db name : Str) (cs : List (List PartDict))
    (st : CatState) :
    (delete_chunks db name cs st).1.tables = st.tables ∧
    ∃ tr, (delete_chunks db name cs st).1.trace = st.trace ++ tr ∧
      ∀ e ∈ tr, e.isDeleteTable = false ∧ e.isUpdateTable = false := by
  induction cs generalizing st with
  | nil => exact ⟨rfl, [], by simp [delete_chunks], by simp⟩
  | cons chunk rest ih =>
    simp only [delete_chunks]
    cases hsv : sliceValues chunk with
    | error e => exact ⟨rfl, [], by simp, by simp⟩
    | ok vals =>
      obtain ⟨ht, tr, htr, hfree⟩ := ih (batch_delete_partition db name vals st)
      refine ⟨by rw [ht, batch_delete_partition_tables], .batchDeletePartition db name vals :: tr, ?_, ?_⟩
      · rw [htr, batch_delete_partition_trace]
        simp
      · intro e he
        rcases List.mem_cons.mp he with rfl | he
        · exact ⟨rfl, rfl⟩
        · exact hfree e he

theorem delete_pages_frame (db name : Str) (pages : List (List PartDict))
    (st : CatState) :
    (delete_pages db name pages st).1.tables = st.tables ∧
    ∃ tr, (delete_pages db name pages st).1.trace = st.trace ++ tr ∧
      ∀ e ∈ tr, e.isDeleteTable = false ∧ e.isUpdateTable = false := by
  induction pages generalizing st with
  | nil => exact ⟨rfl, [], by simp [delete_pages], by simp⟩
  | cons page rest ih =>
    simp only [delete_pages]
    obtain ⟨ht, tr, htr, hfree⟩ := delete_chunks_frame db name (chunked 25 page) st
    cases hdc : delete_chunks db name (chunked 25 page) st with
    | mk st1 r =>
      rw [hdc] at ht htr
      cases r with
      | some e => exact ⟨ht, tr, htr, hfree⟩
      | none =>
        obtain ⟨ht2, tr2, htr2, hfree2⟩ := ih st1
        refine ⟨by rw [ht2, ht], tr ++ tr2, by rw [htr2, htr, List.append_assoc], ?_⟩
        intro e he
        rcases List.mem_append.mp he with he | he
        · exact hfree e he
        · exact hfree2 e he

theorem delete_partitions_frame (pageSize : Nat) (db name : Str) (st : CatState) :
    (delete_partitions pageSize db name st).1.tables = st.tables ∧
    ∃ tr, (delete_partitions pageSize db name st).1.trace = st.trace ++ tr ∧
      ∀ e ∈ tr, e.isDeleteTable = false ∧ e.isUpdateTable = false := by
  unfold delete_partitions
  obtain ⟨ht, tr, htr, hfree⟩ := delete_pages_frame db name
    (chunked pageSize (partsOf st db name)) (traced (.getPartitions db name) st)
  refine ⟨ht, .getPartitions db name :: tr, ?_, ?_⟩
  · rw [htr]
    simp [traced]
  · intro e he
    rcases List.mem_cons.mp he with rfl | he
    · exact ⟨rfl, rfl⟩
    · exact hfree e he

theorem create_items_frame (db name : Str) (items : List PartDict)
    (st : CatState) :
    (create_items db name items st).1.tables = st.tables ∧
    (create_items db name items st).1.trace = st.trace := by
  induction items generalizing st with
  | nil => exact ⟨rfl, rfl⟩
  | cons p rest ih =>
    cases hv : dictGet p keyValues with
    | none =>
      have he : create_items db name (p :: rest) st = (st, some .invalidInput) := by
        simp only [create_items, hv]
      rw [he]
      exact ⟨rfl, rfl⟩
    | some v =>
      have he : create_items db name (p :: rest) st =
          if ((valuesOf st db name).any (fun w => decide (w = v))) = true
          then create_items db name rest st
          else create_items db name rest
            { st with parts := st.parts ++ [((db, name), p)] } := by
        simp only [create_items, hv]
      rw [he]
      by_cases hdup : ((valuesOf st db name).any (fun w => decide (w = v))) = true
      · rw [if_pos hdup]
        exact ih st
      · rw [if_neg hdup]
        exact ih { st with parts := st.parts ++ [((db, name), p)] }

theorem copy_pages_frame (tdb tname : Str) (pages : List (List PartDict))
    (st : CatState) :
    (copy_pages tdb tname pages st).1.tables = st.tables ∧
    ∃ tr, (copy_pages tdb tname pages st).1.trace = st.trace ++ tr ∧
      ∀ e ∈ tr, e.isDeleteTable = false ∧ e.isUpdateTable = false := by
  induction pages generalizing st with
  | nil => exact ⟨rfl, [], by simp [copy_pages], by simp⟩
  | cons page rest ih =>
    simp only [copy_pages]
    have hbc : batch_create_partition tdb tname (page.map cleanPartition) st
        = create_items tdb tname (page.map cleanPartition)
            (traced (.batchCreatePartition tdb tname (page.map cleanPartition)) st) := rfl
    obtain ⟨ht, htr⟩ := create_items_frame tdb tname (page.map cleanPartition)
      (traced (.batchCreatePartition tdb tname (page.map cleanPartition)) st)
    cases hc : batch_create_partition tdb tname (page.map cleanPartition) st with
    | mk st1 r =>
      rw [hbc] at hc
      rw [hc] at ht htr
      cases r with
      | some e =>
        exact ⟨ht, [.batchCreatePartition tdb tname (page.map cleanPartition)],
          by rw [htr]; simp [traced], by simp [GlueCall.isDeleteTable, GlueCall.isUpdateTable]⟩
      | none =>
        obtain ⟨ht2, tr2, htr2, hfree2⟩ := ih st1
        refine ⟨by rw [ht2]; exact ht,
          .batchCreatePartition tdb tname (page.map cleanPartition) :: tr2, ?_, ?_⟩
        · rw [htr2, htr]
          simp [traced]
        · intro e he
          rcases List.mem_cons.mp he with rfl | he
          · exact ⟨rfl, rfl⟩
          · exact hfree2 e he

theorem copy_partitions_frame (sdb sname tdb tname : Str) (st : CatState) :
    (copy_partitions sdb sname tdb tname st).1.tables = st.tables ∧
    ∃ tr, (copy_partitions sdb sname tdb tname st).1.trace = st.trace ++ tr ∧
      ∀ e ∈ tr, e.isDeleteTable = false ∧ e.isUpdateTable = false := by
  unfold copy_partitions
  obtain ⟨ht, tr, htr, hfree⟩ := copy_pages_frame tdb tname
    (chunked 100 (partsOf st sdb sname)) (traced (.getPartitions sdb sname) st)
  refine ⟨ht, .getPartitions sdb sname :: tr, ?_, ?_⟩
  · rw [htr]
    simp [traced]
  · intro e he
    rcases List.mem_cons.mp he with rfl | he
    · exact ⟨rfl, rfl⟩
    · exact hfree e he

/-! ### Helpers for the reconciliation success paths -/

theorem mem_partsOfList {l : List ((Str × Str) × PartDict)} {key : Str × Str}
    {p : PartDict} :
    p ∈ partsOfList l key ↔ ∃ e ∈ l, e.1 = key ∧ e.2 = p := by
  simp only [partsOfList, List.mem_filterMap]
  constructor
  · rintro ⟨e, he, hif⟩
    by_cases hk : e.1 = key
    · rw [if_pos hk] at hif
      exact ⟨e, he, hk, by simpa using hif⟩
    · rw [if_neg hk] at hif
      exact absurd hif (by simp)
  · rintro ⟨e, he, hk, hp⟩
    exact ⟨e, he, by rw [if_pos hk, hp]⟩

theorem mem_partsOfList_of_mem {l : List ((Str × Str) × PartDict)}
    {key : Str × Str} {e : (Str × Str) × PartDict} (he : e ∈ l)
    (hk : e.1 = key) : e.2 ∈ partsOfList l key :=
  mem_partsOfList.mpr ⟨e, he, hk, rfl⟩

theorem mem_of_mem_chunked {l : List α} {size : Nat} {chunk : List α} {x : α}
    (hc : chunk ∈ chunked size l) (hx : x ∈ chunk) : x ∈ l := by
  by_cases hs : size = 0
  · rw [hs] at hc
    simp [chunked] at hc
  · rw [← chunked_flatten size l hs]
    exact List.mem_flatten.mpr ⟨chunk, hc, hx⟩

theorem valuesList_cons_some {p : PartDict} {rest : List PartDict} {v : PyV1}
    (hv : dictGet p keyValues = some v) :
    valuesList (p :: rest) = v :: valuesList rest := by
  simp [valuesList, List.filterMap_cons, hv]

theorem valuesList_map_clean (ps : List PartDict) :
    valuesList (ps.map cleanPartition) = valuesList ps := by
  induction ps with
  | nil => rfl
  | cons p rest ih =>
    simp only [List.map_cons, valuesList, List.filterMap_cons,
      cleanPartition_values] at ih ⊢
    cases dictGet p keyValues with
    | none => exact ih
    | some v => simpa using ih

theorem sliceValues_ok (chunk : List PartDict)
    (h : ∀ p ∈ chunk, (dictGet p keyValues).isSome) :
    ∃ vals, sliceValues chunk = Except.ok vals ∧
      ∀ v, v ∈ vals ↔ ∃ p ∈ chunk, dictGet p keyValues = some v := by
  induction chunk with
  | nil => exact ⟨[], rfl, by simp⟩
  | cons p rest ih =>
    obtain ⟨v, hv⟩ := Option.isSome_iff_exists.mp (h p (List.mem_cons_self p rest))
    obtain ⟨vals, hvals, hiff⟩ := ih (fun q hq => h q (List.mem_cons_of_mem p hq))
    refine ⟨v :: vals, ?_, ?_⟩
    · simp only [sliceValues, hv, hvals]
    · intro w
      simp only [List.mem_cons, hiff]
      constructor
      · rintro (rfl | ⟨q, hq, hqv⟩)
        · exact ⟨p, Or.inl rfl, hv⟩
        · exact ⟨q, Or.inr hq, hqv⟩
      · rintro ⟨q, hq, hqv⟩
        rcases hq with rfl | hq
        · exact Or.inl (by rw [hv] at hqv; simpa using hqv.symm)
        · exact Or.inr ⟨q, hq, hqv⟩

theorem batch_delete_parts_other (db name : Str) (vals : List PyV1)
    (st : CatState) (key2 : Str × Str) (h : key2 ≠ (db, name)) :
    partsOfList (batch_delete_partition db name vals st).parts key2
      = partsOfList st.parts key2 := by
  show partsOfList (st.parts.filter _) key2 = partsOfList st.parts key2
  refine partsOfList_filter_preserve _ _ _ ?_
  intro e he hk
  have hne : e.1 ≠ (db, name) := by rw [hk]; exact h
  simp [hne]

theorem batch_delete_mem_of_mem {db name : Str} {vals : List PyV1}
    {st : CatState} {e : (Str × Str) × PartDict}
    (he : e ∈ (batch_delete_partition db name vals st).parts) : e ∈ st.parts :=
  (List.mem_filter.mp he).1

theorem batch_delete_survivor {db name : Str} {vals : List PyV1}
    {st : CatState} {e : (Str × Str) × PartDict} {v : PyV1}
    (he : e ∈ (batch_delete_partition db name vals st).parts)
    (hk : e.1 = (db, name)) (hv : dictGet e.2 keyValues = some v) :
    v ∉ vals := by
  have hp := (List.mem_filter.mp he).2
  simp only [hk, decide_eq_true_eq, hv] at hp
  intro hmem
  rw [Bool.not_eq_eq_eq_not, Bool.not_true, Bool.and_eq_false_iff] at hp
  rcases hp with hp | hp
  · simp at hp
  · rw [List.any_eq_false] at hp
    exact hp v hmem (by simp)

theorem batch_delete_removes {db name : Str} {vals : List PyV1}
    {st : CatState} {e : (Str × Str) × PartDict} {v : PyV1}
    (hk : e.1 = (db, name)) (hv : dictGet e.2 keyValues = some v)
    (hmem : v ∈ vals) :
    e ∉ (batch_delete_partition db name vals st).parts := by
  intro he
  exact batch_delete_survivor he hk hv hmem

/-! ### Deletion empties the target partition set -/

theorem delete_chunks_all (db name : Str) (cs : List (List PartDict)) :
    ∀ st : CatState,
    (∀ chunk ∈ cs, ∀ p ∈ chunk, (dictGet p keyValues).isSome) →
    (∀ e ∈ st.parts, e.1 = (db, name) → (dictGet e.2 keyValues).isSome) →
    (∀ e ∈ st.parts, e.1 = (db, name) → ∃ chunk ∈ cs, ∃ p ∈ chunk,
      dictGet p keyValues = dictGet e.2 keyValues) →
    ∃ st', delete_chunks db name cs st = (st', none) ∧
      st'.tables = st.tables ∧
      (∀ key2, key2 ≠ (db, name) → partsOfList st'.parts key2 = partsOfList st.parts key2) ∧
      partsOfList st'.parts (db, name) = [] := by
  induction cs with
  | nil =>
    intro st hv hall hcov
    refine ⟨st, rfl, rfl, fun key2 h => rfl, ?_⟩
    refine partsOfList_nil_of _ _ ?_
    intro e he hk
    obtain ⟨chunk, hchunk, _⟩ := hcov e he hk
    simp at hchunk
  | cons chunk rest ih =>
    intro st hv hall hcov
    obtain ⟨vals, hvals, hviff⟩ := sliceValues_ok chunk
      (hv chunk (List.mem_cons_self chunk rest))
    set st1 := batch_delete_partition db name vals st with hst1
    have hsub : ∀ e ∈ st1.parts, e ∈ st.parts := fun e he => batch_delete_mem_of_mem he
    have hcov1 : ∀ e ∈ st1.parts, e.1 = (db, name) → ∃ c ∈ rest, ∃ p ∈ c,
        dictGet p keyValues = dictGet e.2 keyValues := by
      intro e he hk
      have hmem := hsub e he
      obtain ⟨v, hvsome⟩ := Option.isSome_iff_exists.mp (hall e hmem hk)
      have hnot : v ∉ vals := batch_delete_survivor he hk hvsome
      obtain ⟨chunk0, hc0, p, hp, hpv⟩ := hcov e hmem hk
      rcases List.mem_cons.mp hc0 with rfl | hc0
      · exact absurd (hviff v |>.mpr ⟨p, hp, by rw [hpv, hvsome]⟩) hnot
      · exact ⟨chunk0, hc0, p, hp, hpv⟩
    obtain ⟨st', heq, ht, hother, hnil⟩ := ih st1
      (fun c hc p hp => hv c (List.mem_cons_of_mem chunk hc) p hp)
      (fun e he hk => hall e (hsub e he) hk)
      hcov1
    refine ⟨st', ?_, ?_, ?_, hnil⟩
    · simp only [delete_chunks, hvals]
      exact heq
    · rw [ht, hst1, batch_delete_partition_tables]
    · intro key2 hne
      rw [hother key2 hne, hst1, batch_delete_parts_other db name vals st key2 hne]

theorem delete_chunks_append (db name : Str) (cs1 cs2 : List (List PartDict))
    (st : CatState) :
    delete_chunks db name (cs1 ++ cs2) st =
      match delete_chunks db name cs1 st with
      | (st1, none) => delete_chunks db name cs2 st1
      | (st1, some e) => (st1, some e) := by
  induction cs1 generalizing st with
  | nil => simp [delete_chunks]
  | cons chunk rest ih =>
    simp only [List.cons_append, delete_chunks]
    cases hsv : sliceValues chunk with
    | error e => rfl
    | ok vals => exact ih (batch_delete_partition db name vals st)

theorem delete_pages_eq (db name : Str) (pages : List (List PartDict))
    (st : CatState) :
    delete_pages db name pages st =
      delete_chunks db name (pages.map (chunked 25)).flatten st := by
  induction pages generalizing st with
  | nil => simp [delete_pages, delete_chunks]
  | cons page rest ih =>
    simp only [delete_pages, List.map_cons, List.flatten_cons,
      delete_chunks_append]
    cases hdc : delete_chunks db name (chunked 25 page) st with
    | mk st1 r =>
      cases r with
      | some e => rfl
      | none => exact ih st1

theorem delete_partitions_all (pageSize : Nat) (db name : Str) (st : CatState)
    (hps : 0 < pageSize)
    (hvals : ∀ p ∈ partsOf st db name, (dictGet p keyValues).isSome) :
    ∃ st', delete_partitions pageSize db name st = (st', none) ∧
      st'.tables = st.tables ∧
      (∀ key2, key2 ≠ (db, name) → partsOfList st'.parts key2 = partsOfList st.parts key2) ∧
      partsOfList st'.parts (db, name) = [] := by
  unfold delete_partitions
  rw [delete_pages_eq]
  have hpz : pageSize ≠ 0 := by omega
  have hmemcs : ∀ chunk ∈ ((chunked pageSize (partsOf st db name)).map
      (chunked 25)).flatten, ∀ p ∈ chunk, p ∈ partsOf st db name := by
    intro chunk hc p hp
    obtain ⟨x, hx, hchunk⟩ := List.mem_flatten.mp hc
    obtain ⟨page, hpage, rfl⟩ := List.mem_map.mp hx
    exact mem_of_mem_chunked hpage (mem_of_mem_chunked hchunk hp)
  have hcov : ∀ e ∈ (traced (.getPartitions db name) st).parts,
      e.1 = (db, name) →
      ∃ chunk ∈ ((chunked pageSize (partsOf st db name)).map (chunked 25)).flatten,
        ∃ p ∈ chunk, dictGet p keyValues = dictGet e.2 keyValues := by
    intro e he hk
    have hmem : e.2 ∈ partsOf st db name := mem_partsOfList_of_mem he hk
    have h1 : e.2 ∈ (chunked pageSize (partsOf st db name)).flatten := by
      rw [chunked_flatten pageSize _ hpz]
      exact hmem
    obtain ⟨page, hpage, hin⟩ := List.mem_flatten.mp h1
    have h2 : e.2 ∈ (chunked 25 page).flatten := by
      rw [chunked_flatten 25 page (by decide)]
      exact hin
    obtain ⟨chunk, hchunk, hin2⟩ := List.mem_flatten.mp h2
    refine ⟨chunk, ?_, e.2, hin2, rfl⟩
    exact List.mem_flatten.mpr
      ⟨chunked 25 page, List.mem_map.mpr ⟨page, hpage, rfl⟩, hchunk⟩
  obtain ⟨st', heq, ht, hother, hnil⟩ := delete_chunks_all db name
    ((chunked pageSize (partsOf st db name)).map (chunked 25)).flatten
    (traced (.getPartitions db name) st)
    (fun chunk hc p hp => hvals p (hmemcs chunk hc p hp))
    (fun e he hk => hvals e.2 (mem_partsOfList_of_mem he hk))
    hcov
  exact ⟨st', heq, ht, hother, hnil⟩

/-! ### Copying installs exactly the cleaned source records -/

theorem valuesOf_append_one (st : CatState) (db name : Str) (p : PartDict) :
    valuesOf { st with parts := st.parts ++ [((db, name), p)] } db name
      = valuesOf st db name ++ valuesList [p] := by
  show valuesList (partsOfList (st.parts ++ [((db, name), p)]) (db, name)) = _
  rw [partsOfList_append, valuesList_append]
  have hone : partsOfList [((db, name), p)] (db, name) = [p] := by
    simp [partsOfList, List.filterMap_cons]
  rw [hone]
  rfl

theorem valuesOf_append_map (st : CatState) (db name : Str) (ps : List PartDict) :
    valuesOf { st with parts := st.parts ++ ps.map (fun p => ((db, name), p)) } db name
      = valuesOf st db name ++ valuesList ps := by
  show valuesList (partsOfList (st.parts ++ ps.map _) (db, name)) = _
  rw [partsOfList_append, valuesList_append, partsOfList_map_self]
  rfl

theorem create_items_ok (db name : Str) (items : List PartDict) :
    ∀ st : CatState,
    (∀ p ∈ items, (dictGet p keyValues).isSome) →
    (∀ v ∈ valuesList items, v ∉ valuesOf st db name) →
    (valuesList items).Nodup →
    create_items db name items st =
      ({ st with parts := st.parts ++ items.map (fun p => ((db, name), p)) }, none) := by
  induction items with
  | nil =>
    intro st _ _ _
    simp [create_items]
  | cons p rest ih =>
    intro st hval hfresh hnd
    obtain ⟨v, hv⟩ := Option.isSome_iff_exists.mp
      (hval p (List.mem_cons_self p rest))
    have hvl : valuesList (p :: rest) = v :: valuesList rest := valuesList_cons_some hv
    have he : create_items db name (p :: rest) st =
        if ((valuesOf st db name).any (fun w => decide (w = v))) = true
        then create_items db name rest st
        else create_items db name rest
          { st with parts := st.parts ++ [((db, name), p)] } := by
      simp only [create_items, hv]
    have hnotin : v ∉ valuesOf st db name :=
      hfresh v (by rw [hvl]; exact List.mem_cons_self _ _)
    have hdup : ((valuesOf st db name).any (fun w => decide (w = v))) = false := by
      rw [List.any_eq_false]
      intro w hw
      simp only [decide_eq_true_eq]
      intro hwv
      exact hnotin (hwv ▸ hw)
    have hvone : valuesList [p] = [v] := by
      simp [valuesList, List.filterMap_cons, hv]
    have hndc := List.nodup_cons.mp (hvl ▸ hnd)
    have hfresh2 : ∀ w ∈ valuesList rest,
        w ∉ valuesOf { st with parts := st.parts ++ [((db, name), p)] } db name := by
      intro w hw
      rw [valuesOf_append_one, hvone]
      have h1 : w ∉ valuesOf st db name :=
        hfresh w (by rw [hvl]; exact List.mem_cons_of_mem v hw)
      have h2 : w ≠ v := fun hwv => hndc.1 (hwv ▸ hw)
      simp [h1, h2]
    rw [he, if_neg (by rw [hdup]; simp)]
    rw [ih _ (fun q hq => hval q (List.mem_cons_of_mem p hq)) hfresh2 hndc.2]
    simp [List.append_assoc]

theorem copy_pages_ok (tdb tname : Str) (pages : List (List PartDict)) :
    ∀ st : CatState,
    (∀ page ∈ pages, ∀ p ∈ page, (dictGet p keyValues).isSome) →
    (∀ v ∈ valuesList pages.flatten, v ∉ valuesOf st tdb tname) →
    (valuesList pages.flatten).Nodup →
    ∃ st', copy_pages tdb tname pages st = (st', none) ∧
      st'.tables = st.tables ∧
      st'.parts = st.parts ++
        pages.flatten.map (fun p => ((tdb, tname), cleanPartition p)) := by
  induction pages with
  | nil =>
    intro st _ _ _
    exact ⟨st, by simp [copy_pages], rfl, by simp⟩
  | cons page rest ih =>
    intro st hval hfresh hnd
    have hval2 : ∀ q ∈ page.map cleanPartition, (dictGet q keyValues).isSome := by
      intro q hq
      obtain ⟨p, hp, rfl⟩ := List.mem_map.mp hq
      rw [cleanPartition_values]
      exact hval page (List.mem_cons_self _ _) p hp
    have hvlm : valuesList (page.map cleanPartition) = valuesList page :=
      valuesList_map_clean page
    have hflat : valuesList ((page :: rest).flatten)
        = valuesList page ++ valuesList rest.flatten := by
      rw [List.flatten_cons, valuesList_append]
    have hndparts := List.nodup_append.mp (hflat ▸ hnd)
    have hfresh1 : ∀ v ∈ valuesList (page.map cleanPartition),
        v ∉ valuesOf (traced (.batchCreatePartition tdb tname
          (page.map cleanPartition)) st) tdb tname := by
      intro v hv
      rw [hvlm] at hv
      exact hfresh v (by rw [hflat]; exact List.mem_append_left _ hv)
    have hnd1 : (valuesList (page.map cleanPartition)).Nodup := by
      rw [hvlm]
      exact hndparts.1
    have hci := create_items_ok tdb tname (page.map cleanPartition)
      (traced (.batchCreatePartition tdb tname (page.map cleanPartition)) st)
      hval2 hfresh1 hnd1
    have hfresh2 : ∀ v ∈ valuesList rest.flatten,
        v ∉ valuesOf { traced (.batchCreatePartition tdb tname
            (page.map cleanPartition)) st with
          parts := (traced (.batchCreatePartition tdb tname
            (page.map cleanPartition)) st).parts ++
            (page.map cleanPartition).map (fun p => ((tdb, tname), p)) }
          tdb tname := by
      intro v hv
      rw [valuesOf_append_map, hvlm]
      have h1 : v ∉ valuesOf st tdb tname :=
        hfresh v (by rw [hflat]; exact List.mem_append_right _ hv)
      have h2 : v ∉ valuesList page := fun hvp => hndparts.2.2 hvp hv
      simp only [List.mem_append, not_or]
      exact ⟨h1, h2⟩
    obtain ⟨st', heq, ht, hparts⟩ := ih _
      (fun pg hpg p hp => hval pg (List.mem_cons_of_mem page hpg) p hp)
      hfresh2 hndparts.2.1
    refine ⟨st', ?_, ?_, ?_⟩
    · simp only [copy_pages]
      have hbc : batch_create_partition tdb tname (page.map cleanPartition) st
          = ({ traced (.batchCreatePartition tdb tname
              (page.map cleanPartition)) st with
            parts := (traced (.batchCreatePartition tdb tname
              (page.map cleanPartition)) st).parts ++
              (page.map cleanPartition).map (fun p => ((tdb, tname), p)) }, none) := hci
      rw [hbc]
      exact heq
    · rw [ht]
      rfl
    · rw [hparts]
      show (st.parts ++ (page.map cleanPartition).map _) ++ _ = _
      rw [List.append_assoc, List.flatten_cons, List.map_append, List.map_map]
      rfl

theorem copy_partitions_ok (sdb sname tdb tname : Str) (st : CatState)
    (hval : ∀ p ∈ partsOf st sdb sname, (dictGet p keyValues).isSome)
    (hfresh : ∀ v ∈ valuesList (partsOf st sdb sname), v ∉ valuesOf st tdb tname)
    (hnd : (valuesList (partsOf st sdb sname)).Nodup) :
    ∃ st', copy_partitions sdb sname tdb tname st = (st', none) ∧
      st'.tables = st.tables ∧
      st'.parts = st.parts ++
        (partsOf st sdb sname).map (fun p => ((tdb, tname), cleanPartition p)) := by
  unfold copy_partitions
  have hflat : (chunked 100 (partsOf st sdb sname)).flatten = partsOf st sdb sname :=
    chunked_flatten 100 _ (by decide)
  obtain ⟨st', heq, ht, hparts⟩ := copy_pages_ok tdb tname
    (chunked 100 (partsOf st sdb sname)) (traced (.getPartitions sdb sname) st)
    (fun page hpage p hp => hval p (mem_of_mem_chunked hpage hp))
    (by rw [hflat]; exact hfresh)
    (by rw [hflat]; exact hnd)
  refine ⟨st', heq, ht, ?_⟩
  rw [hparts, hflat]
  rfl

/-! ### Claim C1 -/

/-- C1: for every current target table whose storage location, split on
`'/'`, has a second-to-last segment of the form `version_<n>` with `n` an
integer, the next-location computation returns a location whose segments
before the version segment are identical to the input's, whose version
segment is `version_<n+1>`, and which ends in a trailing `'/'`
separator. -/
theorem C1_next_location_correct (resp : GetTableResponse) (loc : Str)
    (pre : List Str) (n : Int) (last : Str)
    (hloc : tableLocation resp.tableEntry = some loc)
    (hsplit : splitOnSlash loc = pre ++ [verChars ++ pyIntRepr n, last]) :
    ∃ out, calculate_next_location resp = Except.ok out ∧
      splitOnSlash out = pre ++ [verChars ++ pyIntRepr (n + 1), []] ∧
      out.getLast? = some '/' := by
  have hfree : ∀ g ∈ pre, '/' ∉ g := by
    intro g hg
    exact noSlash_mem_splitOnSlash loc g
      (by rw [hsplit]; exact List.mem_append_left _ hg)
  refine ⟨joinSlash (pre ++ [verChars ++ pyIntRepr (n + 1), []]), ?_, ?_, ?_⟩
  · rw [calculate_eq_next resp loc hloc,
      next_location_of_versioned loc pre n last hsplit]
  · exact next_location_out_split pre n hfree
  · exact joinSlash_trailing pre _

/-- Witness for C1 at the concrete location `s3://bucket/table/version_3/`. -/
theorem C1_witness :
    ∃ out, calculate_next_location ⟨[(keySD, PyV1.dict [(keyLocation,
        PyV0.str "s3://bucket/table/version_3/".toList)])]⟩ = Except.ok out ∧
      splitOnSlash out = ["s3:".toList, [], "bucket".toList, "table".toList]
        ++ [verChars ++ pyIntRepr (3 + 1), []] ∧
      out.getLast? = some '/' :=
  C1_next_location_correct _ "s3://bucket/table/version_3/".toList
    ["s3:".toList, [], "bucket".toList, "table".toList] 3 []
    (by decide) (by decide)

/-! ### Claim C6 -/

/-- C6 counterexample: the table location `a/12/b` does not have a
second-to-last segment of the form `version_<integer>`, yet the
next-location computation does not fail: it returns `a/version_13/`. -/
theorem C6_counterexample :
    calculate_next_location ⟨[(keySD, PyV1.dict [(keyLocation,
        PyV0.str "a/12/b".toList)])]⟩ = Except.ok "a/version_13/".toList ∧
      ∀ n : Int, ("12".toList : Str) ≠ verChars ++ pyIntRepr n := by
  constructor
  · decide
  · intro n h
    have h3 : verChars ++ pyIntRepr n = 'v' :: ("ersion_".toList ++ pyIntRepr n) := rfl
    have h4 : ("12".toList : Str) = '1' :: ['2'] := rfl
    rw [h3, h4] at h
    exact absurd (List.cons.inj h).1 (by decide)

/-- C6 amended: the computation fails — with the uncaught `IndexError` or
`ValueError` modelled as `malformedVersionPath` — exactly when the split
has fewer than two segments or the second-to-last segment, with every
occurrence of `version_` removed, is not a valid integer literal; such a
failure aborts the overwrite before any write, leaving every table and
partition record untouched. -/
theorem C6_amended_malformed_aborts (dp : DataProc) (delPageSize : Nat)
    (output_path db tbl nowStamp : Str) (st : CatState) (tdef : TableDict)
    (loc : Str)
    (htbl : dictGet st.tables (db, tbl) = some tdef)
    (hloc : tableLocation tdef = some loc)
    (hbad : (splitOnSlash loc).length < 2 ∨
      pyInt (stripVersionAll ((splitOnSlash loc).getD
        ((splitOnSlash loc).length - 2) [])) = none) :
    next_location_of loc = Except.error .malformedVersionPath ∧
    write_versioned_parquet dp delPageSize output_path db tbl nowStamp st
      = (traced (.getTable db tbl) st, some PyErr.malformedVersionPath) := by
  have hfail : next_location_of loc = Except.error .malformedVersionPath := by
    by_cases h2 : 2 ≤ (splitOnSlash loc).length
    · have hparse : pyInt (stripVersionAll ((splitOnSlash loc).getD
          ((splitOnSlash loc).length - 2) [])) = none := by
        rcases hbad with hbad | hbad
        · omega
        · exact hbad
      simp only [next_location_of]
      rw [if_pos h2, hparse]
    · simp only [next_location_of]
      rw [if_neg h2]
  have hcalc : calculate_next_location ⟨tdef⟩
      = Except.error .malformedVersionPath := by
    rw [calculate_eq_next ⟨tdef⟩ loc hloc]
    exact hfail
  refine ⟨hfail, ?_⟩
  simp only [write_versioned_parquet, get_catalog_table_eq, htbl,
    Option.map_some', hcalc]

/-- Witness for the amended C6 at the non-numeric location `a/xyz/b`. -/
theorem C6_amended_witness :
    next_location_of "a/xyz/b".toList = Except.error .malformedVersionPath ∧
    write_versioned_parquet (fun _ _ => none) 100 "root".toList "db".toList
        "tbl".toList "2024".toList
        ⟨[(("db".toList, "tbl".toList), [(keySD, PyV1.dict [(keyLocation,
          PyV0.str "a/xyz/b".toList)])])], [], []⟩
      = (traced (.getTable "db".toList "tbl".toList)
          ⟨[(("db".toList, "tbl".toList), [(keySD, PyV1.dict [(keyLocation,
            PyV0.str "a/xyz/b".toList)])])], [], []⟩,
         some PyErr.malformedVersionPath) :=
  C6_amended_malformed_aborts (fun _ _ => none) 100 "root".toList "db".toList
    "tbl".toList "2024".toList
    ⟨[(("db".toList, "tbl".toList), [(keySD, PyV1.dict [(keyLocation,
      PyV0.str "a/xyz/b".toList)])])], [], []⟩
    [(keySD, PyV1.dict [(keyLocation, PyV0.str "a/xyz/b".toList)])]
    "a/xyz/b".toList
    (by decide) (by decide) (by decide)

/-! ### Claim C7 -/

/-- C7: the bare `except` of `get_catalog_table` (lines 11-15) maps a
transport error to `None` exactly as it maps genuine absence to `None`,
so the NotFound outcome does not distinguish a missing table from a
failed call, and the first-write branch can trigger on a transport
error. -/
theorem C7_lookup_conflates_transport_errors :
    get_catalog_table_resp (Except.error .transportError) = none ∧
    get_catalog_table_resp (Except.error .entityNotFound) = none ∧
    get_catalog_table_resp (Except.error .transportError)
      = get_catalog_table_resp (Except.error .entityNotFound) :=
  ⟨rfl, rfl, rfl⟩

/-! ### Claim C10 -/

/-- C10: the table input submitted by the flip equals the staging
definition with exactly the five keys CreatedBy, CreateTime, UpdateTime,
DatabaseName and IsRegisteredWithLakeFormation removed, the Name key
bound to the target name, and the storage descriptor's Location bound to
the next-generation location; every other top-level key and every other
storage-descriptor entry is carried over unchanged. -/
theorem C10_table_input_fields (d : TableDict) (name loc : Str) (sd : SDDict)
    (hsd : dictGet d keySD = some (.dict sd)) :
    ∃ ti, make_table_input d name loc = Except.ok ti ∧
      dictGet ti keyName = some (.v0 (.str name)) ∧
      dictGet ti keySD = some (.dict (dictSet sd keyLocation (.str loc))) ∧
      (∀ k ∈ excludedTableKeys, dictGet ti k = none) ∧
      (∀ k, k ∉ excludedTableKeys → k ≠ keyName → k ≠ keySD →
        dictGet ti k = dictGet d k) ∧
      (∀ sk, sk ≠ keyLocation →
        dictGet (dictSet sd keyLocation (.str loc)) sk = dictGet sd sk) ∧
      dictGet (dictSet sd keyLocation (.str loc)) keyLocation
        = some (.str loc) := by
  refine ⟨_, make_table_input_eq d name loc sd hsd, ?_, ?_, ?_, ?_, ?_, ?_⟩
  · rw [dictGet_dictSet_ne _ _ _ _ (by decide), dictGet_dictSet_self]
  · rw [dictGet_dictSet_self]
  · intro k hk
    fin_cases hk <;>
      rw [dictGet_dictSet_ne _ _ _ _ (by decide),
        dictGet_dictSet_ne _ _ _ _ (by decide),
        dictGet_filter_not_mem d excludedTableKeys, if_pos (by decide)]
  · intro k hk hkn hksd
    rw [dictGet_dictSet_ne _ _ _ _ hksd, dictGet_dictSet_ne _ _ _ _ hkn,
      dictGet_filter_not_mem d excludedTableKeys k,
      if_neg (fun hh => hk ((keyExcluded_iff _ _).mp hh))]
  · intro sk hsk
    exact dictGet_dictSet_ne sd keyLocation sk _ hsk
  · exact dictGet_dictSet_self _ _ _

/-- Witness for C10 on a concrete staging definition carrying all five
excluded keys, a schema and parameters. -/
theorem C10_witness :
    ∃ ti, make_table_input
        [(keySD, PyV1.dict [(keyLocation, PyV0.str "old/".toList),
           ("Columns".toList, PyV0.atom 7)]),
         ("CreatedBy".toList, PyV1.v0 (.atom 1)),
         ("CreateTime".toList, PyV1.v0 (.atom 2)),
         ("UpdateTime".toList, PyV1.v0 (.atom 3)),
         ("DatabaseName".toList, PyV1.v0 (.str "db".toList)),
         ("IsRegisteredWithLakeFormation".toList, PyV1.v0 (.atom 0)),
         ("TableType".toList, PyV1.v0 (.str "EXTERNAL".toList)),
         (keyName, PyV1.v0 (.str "staging".toList))]
        "target".toList "new/".toList = Except.ok ti ∧
      dictGet ti keyName = some (.v0 (.str "target".toList)) ∧
      dictGet ti keySD = some (.dict (dictSet [(keyLocation,
          PyV0.str "old/".toList), ("Columns".toList, PyV0.atom 7)]
        keyLocation (.str "new/".toList))) ∧
      (∀ k ∈ excludedTableKeys, dictGet ti k = none) ∧
      (∀ k, k ∉ excludedTableKeys → k ≠ keyName → k ≠ keySD →
        dictGet ti k = dictGet [(keySD, PyV1.dict [(keyLocation,
            PyV0.str "old/".toList), ("Columns".toList, PyV0.atom 7)]),
          ("CreatedBy".toList, PyV1.v0 (.atom 1)),
          ("CreateTime".toList, PyV1.v0 (.atom 2)),
          ("UpdateTime".toList, PyV1.v0 (.atom 3)),
          ("DatabaseName".toList, PyV1.v0 (.str "db".toList)),
          ("IsRegisteredWithLakeFormation".toList, PyV1.v0 (.atom 0)),
          ("TableType".toList, PyV1.v0 (.str "EXTERNAL".toList)),
          (keyName, PyV1.v0 (.str "staging".toList))] k) ∧
      (∀ sk, sk ≠ keyLocation →
        dictGet (dictSet [(keyLocation, PyV0.str "old/".toList),
            ("Columns".toList, PyV0.atom 7)] keyLocation
          (.str "new/".toList)) sk
          = dictGet [(keyLocation, PyV0.str "old/".toList),
            ("Columns".toList, PyV0.atom 7)] sk) ∧
      dictGet (dictSet [(keyLocation, PyV0.str "old/".toList),
          ("Columns".toList, PyV0.atom 7)] keyLocation
        (.str "new/".toList)) keyLocation
        = some (.str "new/".toList) :=
  C10_table_input_fields _ "target".toList "new/".toList _ (by decide)

/-! ### Claim C3 -/

/-- C3: when delete-then-copy reconciliation completes without error, the
partition records under the target are exactly the cleaned staging
records — the staging records with DatabaseName, TableName and
CreationTime stripped — so the set of partition key-value tuples under
the target equals exactly the set under the staging table when
reconciliation began, with no extras and no omissions, for every
partition count and every positive paginator page size. -/
theorem C3_reconciliation_complete (pageSize : Nat)
    (db stagingTbl targetTbl : Str) (st : CatState)
    (hne : stagingTbl ≠ targetTbl)
    (hps : 0 < pageSize)
    (htv : ∀ p ∈ partsOf st db targetTbl, (dictGet p keyValues).isSome)
    (hsv : ∀ p ∈ partsOf st db stagingTbl, (dictGet p keyValues).isSome)
    (hnd : (valuesList (partsOf st db stagingTbl)).Nodup) :
    ∃ st1 st2, delete_partitions pageSize db targetTbl st = (st1, none) ∧
      copy_partitions db stagingTbl db targetTbl st1 = (st2, none) ∧
      partsOf st2 db targetTbl = (partsOf st db stagingTbl).map cleanPartition ∧
      valuesOf st2 db targetTbl = valuesOf st db stagingTbl ∧
      (∀ v, v ∈ valuesOf st2 db targetTbl ↔ v ∈ valuesOf st db stagingTbl) := by
  obtain ⟨st1, hdel, ht1, hother1, hnil1⟩ :=
    delete_partitions_all pageSize db targetTbl st hps htv
  have hkeyne : ((db, stagingTbl) : Str × Str) ≠ (db, targetTbl) := by
    simp [hne]
  have hsrc1 : partsOf st1 db stagingTbl = partsOf st db stagingTbl :=
    hother1 (db, stagingTbl) hkeyne
  have hfresh : ∀ v ∈ valuesList (partsOf st1 db stagingTbl),
      v ∉ valuesOf st1 db targetTbl := by
    intro v _
    show v ∉ valuesList (partsOfList st1.parts (db, targetTbl))
    rw [hnil1]
    simp [valuesList]
  obtain ⟨st2, hcopy, ht2, hparts2⟩ :=
    copy_partitions_ok db stagingTbl db targetTbl st1
      (by rw [hsrc1]; exact hsv) hfresh (by rw [hsrc1]; exact hnd)
  have htarget : partsOf st2 db targetTbl
      = (partsOf st db stagingTbl).map cleanPartition := by
    show partsOfList st2.parts (db, targetTbl) = _
    rw [hparts2, partsOfList_append, hnil1, hsrc1]
    have hmm : (partsOf st db stagingTbl).map
        (fun p => (((db, targetTbl) : Str × Str), cleanPartition p))
        = ((partsOf st db stagingTbl).map cleanPartition).map
          (fun p => (((db, targetTbl) : Str × Str), p)) := by
      rw [List.map_map]
      rfl
    rw [hmm, partsOfList_map_self]
    simp
  have hvalues : valuesOf st2 db targetTbl = valuesOf st db stagingTbl := by
    show valuesList (partsOf st2 db targetTbl)
      = valuesList (partsOf st db stagingTbl)
    rw [htarget, valuesList_map_clean]
  exact ⟨st1, st2, hdel, hcopy, htarget, hvalues, fun v => by rw [hvalues]⟩

/-- Witness for C3: three staging partitions and two pre-existing target
partitions, with page size two, so both loops paginate. -/
theorem C3_witness :
    ∃ st1 st2, delete_partitions 2 "db".toList "tgt".toList sampleReconState
        = (st1, none) ∧
      copy_partitions "db".toList "stg".toList "db".toList "tgt".toList st1
        = (st2, none) ∧
      partsOf st2 "db".toList "tgt".toList
        = (partsOf sampleReconState "db".toList "stg".toList).map cleanPartition ∧
      valuesOf st2 "db".toList "tgt".toList
        = valuesOf sampleReconState "db".toList "stg".toList ∧
      (∀ v, v ∈ valuesOf st2 "db".toList "tgt".toList ↔
        v ∈ valuesOf sampleReconState "db".toList "stg".toList) :=
  C3_reconciliation_complete 2 "db".toList "stg".toList "tgt".toList
    sampleReconState (by decide) (by decide) (by decide) (by decide) (by decide)

/-! ### Claim C4 -/

/-- C4: when the data-processor write step of an overwrite attempt raises,
the invocation aborts with that failure and every table definition and
partition record in the catalog — in particular the target's location,
schema and partition set — equals its pre-attempt value: no catalog
mutation of the target occurs before the write step succeeds. -/
theorem C4_write_failure_leaves_target_untouched (dp : DataProc)
    (delPageSize : Nat) (output_path db tbl nowStamp : Str) (st : CatState)
    (tdef : TableDict) (nextLoc : Str)
    (htbl : dictGet st.tables (db, tbl) = some tdef)
    (hcalc : calculate_next_location ⟨tdef⟩ = Except.ok nextLoc)
    (hdp : dp nextLoc (stagingName tbl nowStamp) = none) :
    (write_versioned_parquet dp delPageSize output_path db tbl nowStamp st).2
      = some PyErr.dataProcessorFailure ∧
    (write_versioned_parquet dp delPageSize output_path db tbl nowStamp st).1.tables
      = st.tables ∧
    (write_versioned_parquet dp delPageSize output_path db tbl nowStamp st).1.parts
      = st.parts := by
  have hwp := write_parquet_fail dp nextLoc db (stagingName tbl nowStamp)
    (traced (.getTable db tbl) st) hdp
  simp only [write_versioned_parquet, get_catalog_table_eq, htbl,
    Option.map_some', hcalc, hwp]
  exact ⟨trivial, rfl, rfl⟩

/-- Witness for C4 on the sample overwrite state with a failing data
processor. -/
theorem C4_witness :
    (write_versioned_parquet (fun _ _ => none) 100 "mydb/tbl".toList
        "db".toList "tbl".toList "2024".toList sampleOverwriteState).2
      = some PyErr.dataProcessorFailure ∧
    (write_versioned_parquet (fun _ _ => none) 100 "mydb/tbl".toList
        "db".toList "tbl".toList "2024".toList sampleOverwriteState).1.tables
      = sampleOverwriteState.tables ∧
    (write_versioned_parquet (fun _ _ => none) 100 "mydb/tbl".toList
        "db".toList "tbl".toList "2024".toList sampleOverwriteState).1.parts
      = sampleOverwriteState.parts :=
  C4_write_failure_leaves_target_untouched (fun _ _ => none) 100
    "mydb/tbl".toList "db".toList "tbl".toList "2024".toList
    sampleOverwriteState sampleTargetDef "mydb/tbl/version_4/".toList
    (by decide) (by decide) (by decide)

/-! ### Claim C5 -/

/-- C5: when the target table is absent from the catalog, the invocation
writes the new data under `<root>/version_0`, registers the result
directly under the final target table name — no other table is created —
issues no partition-delete calls, and reports success. -/
theorem C5_first_write (dp : DataProc) (delPageSize : Nat)
    (output_path db tbl nowStamp : Str) (st : CatState)
    (tdef : TableDict) (ps : List PartDict)
    (hmiss : dictGet st.tables (db, tbl) = none)
    (hdp : dp (output_path ++ '/' :: "version_0".toList) tbl = some (tdef, ps)) :
    (write_versioned_parquet dp delPageSize output_path db tbl nowStamp st).2
      = none ∧
    (write_versioned_parquet dp delPageSize output_path db tbl nowStamp st).1.trace
      = st.trace ++ [.getTable db tbl,
        .writeParquet (output_path ++ '/' :: "version_0".toList) db tbl] ∧
    dictGet (write_versioned_parquet dp delPageSize output_path db tbl nowStamp
        st).1.tables (db, tbl)
      = some (setLocationField tdef
          (ensureSlash (output_path ++ '/' :: "version_0".toList))) ∧
    (∀ name2, name2 ≠ tbl →
      dictGet (write_versioned_parquet dp delPageSize output_path db tbl
          nowStamp st).1.tables (db, name2)
        = dictGet st.tables (db, name2)) ∧
    (∀ e ∈ (write_versioned_parquet dp delPageSize output_path db tbl nowStamp
        st).1.trace, e.isBatchDelete = true → e ∈ st.trace) := by
  have hwp := write_parquet_ok dp (output_path ++ '/' :: "version_0".toList)
    db tbl (traced (.getTable db tbl) st) tdef ps hdp
  simp only [write_versioned_parquet, get_catalog_table_eq, hmiss,
    Option.map_none', hwp]
  refine ⟨trivial, ?_, ?_, ?_, ?_⟩
  · show (traced (.getTable db tbl) st).trace ++ _ = _
    simp [traced]
  · exact dictGet_dictSet_self _ _ _
  · intro name2 hne
    exact dictGet_dictSet_ne _ _ _ _ (by simp [hne])
  · intro e he hdel
    rcases List.mem_append.mp he with he | he
    · rcases List.mem_append.mp (show e ∈ st.trace ++ [GlueCall.getTable db tbl]
        from he) with he2 | he2
      · exact he2
      · simp only [List.mem_singleton] at he2
        rw [he2] at hdel
        simp [GlueCall.isBatchDelete] at hdel
    · simp only [List.mem_singleton] at he
      rw [he] at hdel
      simp [GlueCall.isBatchDelete] at hdel

/-- Witness for C5 on an empty catalog. -/
theorem C5_witness :
    (write_versioned_parquet sampleDp 100 "mydb/tbl".toList "db".toList
        "tbl".toList "2024".toList ⟨[], [], []⟩).2 = none ∧
    (write_versioned_parquet sampleDp 100 "mydb/tbl".toList "db".toList
        "tbl".toList "2024".toList ⟨[], [], []⟩).1.trace
      = ([] : List GlueCall) ++ [.getTable "db".toList "tbl".toList,
        .writeParquet ("mydb/tbl".toList ++ '/' :: "version_0".toList)
          "db".toList "tbl".toList] ∧
    dictGet (write_versioned_parquet sampleDp 100 "mydb/tbl".toList
        "db".toList "tbl".toList "2024".toList ⟨[], [], []⟩).1.tables
        ("db".toList, "tbl".toList)
      = some (setLocationField sampleStagingDef
          (ensureSlash ("mydb/tbl".toList ++ '/' :: "version_0".toList))) ∧
    (∀ name2, name2 ≠ "tbl".toList →
      dictGet (write_versioned_parquet sampleDp 100 "mydb/tbl".toList
          "db".toList "tbl".toList "2024".toList ⟨[], [], []⟩).1.tables
          ("db".toList, name2)
        = dictGet (CatState.mk [] [] []).tables ("db".toList, name2)) ∧
    (∀ e ∈ (write_versioned_parquet sampleDp 100 "mydb/tbl".toList
        "db".toList "tbl".toList "2024".toList ⟨[], [], []⟩).1.trace,
      e.isBatchDelete = true → e ∈ ([] : List GlueCall)) :=
  C5_first_write sampleDp 100 "mydb/tbl".toList "db".toList "tbl".toList
    "2024".toList ⟨[], [], []⟩ sampleStagingDef [samplePart 'a', samplePart 'b']
    (by decide) (by decide)

/-! ### The successful overwrite pipeline -/

theorem dictGet_setLocationField_sd (d : TableDict) (loc : Str) :
    dictGet (setLocationField d loc) keySD
      = some (.dict (dictSet (sdOf d) keyLocation (.str loc))) :=
  dictGet_dictSet_self _ _ _

theorem wvp_overwrite_ok (dp : DataProc) (delPageSize : Nat)
    (output_path db tbl nowStamp : Str) (st : CatState)
    (tdef sdef : TableDict) (ps : List PartDict) (nextLoc : Str)
    (htbl : dictGet st.tables (db, tbl) = some tdef)
    (hcalc : calculate_next_location ⟨tdef⟩ = Except.ok nextLoc)
    (hdp : dp nextLoc (stagingName tbl nowStamp) = some (sdef, ps))
    (hdel0 : 0 < delPageSize)
    (htv : ∀ p ∈ partsOf st db tbl, (dictGet p keyValues).isSome)
    (hpsv : ∀ p ∈ ps, (dictGet p keyValues).isSome)
    (hnd : (valuesList ps).Nodup)
    (hstg0 : partsOf st db (stagingName tbl nowStamp) = []) :
    ∃ stF ti,
      write_versioned_parquet dp delPageSize output_path db tbl nowStamp st
        = (stF, none) ∧
      make_table_input (setLocationField sdef (ensureSlash nextLoc)) tbl nextLoc
        = Except.ok ti ∧
      dictGet stF.tables (db, tbl) = some ti ∧
      dictGet stF.tables (db, stagingName tbl nowStamp) = none ∧
      GlueCall.updateTable db tbl ∈ stF.trace ∧
      GlueCall.deleteTable db (stagingName tbl nowStamp) ∈ stF.trace := by
  have hne : stagingName tbl nowStamp ≠ tbl := stagingName_ne tbl nowStamp
  have hkey_ne : ((db, stagingName tbl nowStamp) : Str × Str) ≠ (db, tbl) := by
    simp [hne]
  have hkey_ne2 : ((db, tbl) : Str × Str) ≠ (db, stagingName tbl nowStamp) :=
    fun he => hkey_ne he.symm
  have hwp := write_parquet_ok dp nextLoc db (stagingName tbl nowStamp)
    (traced (.getTable db tbl) st) sdef ps hdp
  have hsd := dictGet_setLocationField_sd sdef (ensureSlash nextLoc)
  obtain ⟨ti, hti, htiName⟩ : ∃ ti,
      make_table_input (setLocationField sdef (ensureSlash nextLoc)) tbl
        nextLoc = Except.ok ti ∧
      dictGet ti keyName = some (.v0 (.str tbl)) := by
    refine ⟨_, make_table_input_eq _ tbl nextLoc _ hsd, ?_⟩
    rw [dictGet_dictSet_ne _ _ _ _ (by decide), dictGet_dictSet_self]
  have htv2 : ∀ p ∈ partsOf (traced (.getTable db (stagingName tbl nowStamp))
      { tables := dictSet (traced (.getTable db tbl) st).tables
          (db, stagingName tbl nowStamp)
          (setLocationField sdef (ensureSlash nextLoc)),
        parts := (traced (.getTable db tbl) st).parts
          ++ ps.map (fun p => ((db, stagingName tbl nowStamp), p)),
        trace := (traced (.getTable db tbl) st).trace
          ++ [.writeParquet nextLoc db (stagingName tbl nowStamp)] })
      db tbl, (dictGet p keyValues).isSome := by
    intro p hp
    apply htv p
    have hp2 : p ∈ partsOfList (st.parts
        ++ ps.map (fun p => ((db, stagingName tbl nowStamp), p))) (db, tbl) := hp
    rw [partsOfList_append, partsOfList_map_ne _ _ _ hkey_ne2] at hp2
    simpa using hp2
  obtain ⟨stE, hdelE, htE, hotherE, hnilE⟩ :=
    delete_partitions_all delPageSize db tbl _ hdel0 htv2
  have hsrcE : partsOf stE db (stagingName tbl nowStamp) = ps := by
    rw [show partsOf stE db (stagingName tbl nowStamp)
        = partsOfList (st.parts
          ++ ps.map (fun p => ((db, stagingName tbl nowStamp), p)))
          (db, stagingName tbl nowStamp) from
      hotherE (db, stagingName tbl nowStamp) hkey_ne]
    rw [partsOfList_append, partsOfList_map_self]
    rw [show partsOfList st.parts (db, stagingName tbl nowStamp)
        = partsOf st db (stagingName tbl nowStamp) from rfl, hstg0]
    simp
  obtain ⟨stG, hcopyG, htG, hpartsG⟩ :=
    copy_partitions_ok db (stagingName tbl nowStamp) db tbl stE
      (by rw [hsrcE]; exact hpsv)
      (by intro v hv
          show v ∉ valuesList (partsOfList stE.parts (db, tbl))
          rw [hnilE]
          simp [valuesList])
      (by rw [hsrcE]; exact hnd)
  have htablesG : stG.tables = dictSet st.tables (db, stagingName tbl nowStamp)
      (setLocationField sdef (ensureSlash nextLoc)) := by
    rw [htG, htE]
    rfl
  have hcontains_tbl : containsKey stG.tables (db, tbl) = true := by
    rw [htablesG]
    apply containsKey_dictSet_of
    rw [containsKey_eq_isSome, htbl]
    rfl
  have hupd := update_table_ok db ti stG tbl htiName hcontains_tbl
  have hcontains_stg : containsKey (dictSet stG.tables (db, tbl) ti)
      (db, stagingName tbl nowStamp) = true := by
    apply containsKey_dictSet_of
    rw [htablesG]
    exact containsKey_dictSet_self _ _ _
  have hdelT := delete_table_ok db (stagingName tbl nowStamp)
    { tables := dictSet stG.tables (db, tbl) ti, parts := stG.parts, trace := stG.trace ++ [.updateTable db tbl] }
    hcontains_stg
  refine ⟨{ tables := List.filter (fun kv => decide (kv.1 ≠ (db, stagingName tbl nowStamp))) (dictSet stG.tables (db, tbl) ti), parts := stG.parts, trace := (stG.trace ++ [.updateTable db tbl]) ++ [.deleteTable db (stagingName tbl nowStamp)] }, ti, ?_, hti, ?_, ?_, ?_, ?_⟩
  · simp only [write_versioned_parquet, get_catalog_table_eq, htbl,
      Option.map_some', hcalc, hwp, dictGet_dictSet_self, hti, hdelE, hcopyG,
      hupd, hdelT]
  · show dictGet (List.filter _ _) (db, tbl) = _
    rw [dictGet_filter_ne_key _ _ _ hkey_ne2]
    exact dictGet_dictSet_self _ _ _
  · show dictGet (List.filter _ _) (db, stagingName tbl nowStamp) = none
    exact dictGet_filter_self_key _ _
  · show GlueCall.updateTable db tbl ∈
      (stG.trace ++ [GlueCall.updateTable db tbl])
        ++ [GlueCall.deleteTable db (stagingName tbl nowStamp)]
    exact List.mem_append_left _ (List.mem_append_right _ (by simp))
  · exact List.mem_append_right _ (by simp)

theorem tableSchema_of_sd (d : TableDict) (sd : SDDict)
    (hsd : dictGet d keySD = some (.dict sd)) :
    tableSchema d = dictGet sd ("Columns".toList) := by
  simp [tableSchema, hsd]

theorem make_table_input_props (d : TableDict) (name loc : Str) (sd : SDDict)
    (hsd : dictGet d keySD = some (.dict sd)) :
    ∃ ti, make_table_input d name loc = Except.ok ti ∧
      tableLocation ti = some loc ∧
      tableSchema ti = dictGet sd ("Columns".toList) := by
  refine ⟨_, make_table_input_eq d name loc sd hsd, ?_, ?_⟩
  · simp [tableLocation, dictGet_dictSet_self]
  · simp only [tableSchema, dictGet_dictSet_self]
    exact dictGet_dictSet_ne _ _ _ _ (by decide)

/-! ### Claim C2 -/

/-- C2: after the flip of a successful overwrite, the target table's
catalog definition is the submitted table input — the staging table's
fetched definition with the creation/update timestamp and
database-association fields stripped, the target's name substituted and
the new generation's location substituted — so the target's storage
location equals the computed next-generation location and its schema
equals the staging table's schema at swap time. -/
theorem C2_flip_installs_staging_definition (dp : DataProc) (delPageSize : Nat)
    (output_path db tbl nowStamp : Str) (st : CatState)
    (tdef sdef : TableDict) (ps : List PartDict) (nextLoc : Str)
    (htbl : dictGet st.tables (db, tbl) = some tdef)
    (hcalc : calculate_next_location ⟨tdef⟩ = Except.ok nextLoc)
    (hdp : dp nextLoc (stagingName tbl nowStamp) = some (sdef, ps))
    (hdel0 : 0 < delPageSize)
    (htv : ∀ p ∈ partsOf st db tbl, (dictGet p keyValues).isSome)
    (hpsv : ∀ p ∈ ps, (dictGet p keyValues).isSome)
    (hnd : (valuesList ps).Nodup)
    (hstg0 : partsOf st db (stagingName tbl nowStamp) = []) :
    ∃ stF ti,
      write_versioned_parquet dp delPageSize output_path db tbl nowStamp st
        = (stF, none) ∧
      make_table_input (setLocationField sdef (ensureSlash nextLoc)) tbl nextLoc
        = Except.ok ti ∧
      dictGet stF.tables (db, tbl) = some ti ∧
      tableLocation ti = some nextLoc ∧
      tableSchema ti = tableSchema (setLocationField sdef (ensureSlash nextLoc)) := by
  obtain ⟨stF, ti, hrun, hti, hget, hstg, hupd, hdel⟩ :=
    wvp_overwrite_ok dp delPageSize output_path db tbl nowStamp st tdef sdef
      ps nextLoc htbl hcalc hdp hdel0 htv hpsv hnd hstg0
  have hsd := dictGet_setLocationField_sd sdef (ensureSlash nextLoc)
  obtain ⟨ti2, hti2, hloc2, hschema2⟩ := make_table_input_props
    (setLocationField sdef (ensureSlash nextLoc)) tbl nextLoc _ hsd
  have htieq : ti = ti2 := by
    rw [hti] at hti2
    exact Except.ok.inj hti2
  subst htieq
  refine ⟨stF, ti, hrun, hti, hget, hloc2, ?_⟩
  rw [hschema2, tableSchema_of_sd _ _ hsd]

/-- Witness for C2 on the sample overwrite state. -/
theorem C2_witness :
    ∃ stF ti,
      write_versioned_parquet sampleDp 100 "mydb/tbl".toList "db".toList
          "tbl".toList "2024".toList sampleOverwriteState = (stF, none) ∧
      make_table_input (setLocationField sampleStagingDef
          (ensureSlash "mydb/tbl/version_4/".toList)) "tbl".toList
          "mydb/tbl/version_4/".toList = Except.ok ti ∧
      dictGet stF.tables ("db".toList, "tbl".toList) = some ti ∧
      tableLocation ti = some "mydb/tbl/version_4/".toList ∧
      tableSchema ti = tableSchema (setLocationField sampleStagingDef
        (ensureSlash "mydb/tbl/version_4/".toList)) :=
  C2_flip_installs_staging_definition sampleDp 100 "mydb/tbl".toList
    "db".toList "tbl".toList "2024".toList sampleOverwriteState
    sampleTargetDef sampleStagingDef [samplePart 'a', samplePart 'b']
    "mydb/tbl/version_4/".toList (by decide) (by decide) (by decide)
    (by decide) (by decide) (by decide) (by decide) (by decide)

theorem tableLocation_setLocationField (d : TableDict) (loc : Str) :
    tableLocation (setLocationField d loc) = some loc := by
  simp [tableLocation, setLocationField, dictGet_dictSet_self]

theorem firstWriteLoc_eq (output_path : Str) :
    ensureSlash (output_path ++ '/' :: "version_0".toList)
      = output_path ++ '/' :: "version_0/".toList := by
  have hgl : (output_path ++ '/' :: "version_0".toList).getLast? = some '0' := by
    rw [List.getLast?_append]
    rfl
  unfold ensureSlash
  rw [hgl, if_neg (by decide), List.append_assoc]
  rfl

theorem splitOnSlash_firstWrite (output_path : Str) :
    splitOnSlash (ensureSlash (output_path ++ '/' :: "version_0".toList))
      = splitOnSlash output_path ++ [verChars ++ pyIntRepr 0, []] := by
  rw [firstWriteLoc_eq, splitOnSlash_append_slash]
  have h9 : splitOnSlash "version_0/".toList
      = [verChars ++ pyIntRepr 0, []] := by decide
  rw [h9]

/-! ### Claim C8 -/

/-- C8: every storage location the system publishes for the target table
— the one registered by the first-write path and the one installed by
every subsequent flip — encodes the generation as a segment
`version_<n>` at the second-to-last position of the location split on
'/', so each published location satisfies the next-location
computation's precondition (the computation succeeds on it, producing
the following generation). -/
theorem C8_published_locations_versioned :
    (∀ (dp : DataProc) (delPageSize : Nat) (output_path db tbl nowStamp : Str)
       (st : CatState) (tdef : TableDict) (ps : List PartDict),
      dictGet st.tables (db, tbl) = none →
      dp (output_path ++ '/' :: "version_0".toList) tbl = some (tdef, ps) →
      (write_versioned_parquet dp delPageSize output_path db tbl nowStamp st).2
        = none ∧
      dictGet (write_versioned_parquet dp delPageSize output_path db tbl
          nowStamp st).1.tables (db, tbl)
        = some (setLocationField tdef
            (ensureSlash (output_path ++ '/' :: "version_0".toList))) ∧
      tableLocation (setLocationField tdef
          (ensureSlash (output_path ++ '/' :: "version_0".toList)))
        = some (ensureSlash (output_path ++ '/' :: "version_0".toList)) ∧
      splitOnSlash (ensureSlash (output_path ++ '/' :: "version_0".toList))
        = splitOnSlash output_path ++ [verChars ++ pyIntRepr 0, []] ∧
      next_location_of (ensureSlash (output_path ++ '/' :: "version_0".toList))
        = Except.ok (joinSlash (splitOnSlash output_path
            ++ [verChars ++ pyIntRepr (0 + 1), []]))) ∧
    (∀ (dp : DataProc) (delPageSize : Nat) (output_path db tbl nowStamp : Str)
       (st : CatState) (tdef sdef : TableDict) (ps : List PartDict)
       (loc : Str) (pre : List Str) (n : Int) (last : Str),
      dictGet st.tables (db, tbl) = some tdef →
      tableLocation tdef = some loc →
      splitOnSlash loc = pre ++ [verChars ++ pyIntRepr n, last] →
      dp (joinSlash (pre ++ [verChars ++ pyIntRepr (n + 1), []]))
          (stagingName tbl nowStamp) = some (sdef, ps) →
      0 < delPageSize →
      (∀ p ∈ partsOf st db tbl, (dictGet p keyValues).isSome) →
      (∀ p ∈ ps, (dictGet p keyValues).isSome) →
      (valuesList ps).Nodup →
      partsOf st db (stagingName tbl nowStamp) = [] →
      ∃ stF ti,
        write_versioned_parquet dp delPageSize output_path db tbl nowStamp st
          = (stF, none) ∧
        dictGet stF.tables (db, tbl) = some ti ∧
        tableLocation ti
          = some (joinSlash (pre ++ [verChars ++ pyIntRepr (n + 1), []])) ∧
        splitOnSlash (joinSlash (pre ++ [verChars ++ pyIntRepr (n + 1), []]))
          = pre ++ [verChars ++ pyIntRepr (n + 1), []] ∧
        next_location_of (joinSlash (pre ++ [verChars ++ pyIntRepr (n + 1), []]))
          = Except.ok (joinSlash (pre
              ++ [verChars ++ pyIntRepr (n + 1 + 1), []]))) := by
  constructor
  · intro dp delPageSize output_path db tbl nowStamp st tdef ps hmiss hdp
    have hwp := write_parquet_ok dp (output_path ++ '/' :: "version_0".toList)
      db tbl (traced (.getTable db tbl) st) tdef ps hdp
    refine ⟨?_, ?_, tableLocation_setLocationField _ _,
      splitOnSlash_firstWrite output_path,
      next_location_of_versioned _ (splitOnSlash output_path) 0 []
        (splitOnSlash_firstWrite output_path)⟩
    · simp only [write_versioned_parquet, get_catalog_table_eq, hmiss,
        Option.map_none', hwp]
    · simp only [write_versioned_parquet, get_catalog_table_eq, hmiss,
        Option.map_none', hwp]
      exact dictGet_dictSet_self _ _ _
  · intro dp delPageSize output_path db tbl nowStamp st tdef sdef ps loc pre
      n last htbl hloc hsplit hdp hdel0 htv hpsv hnd hstg0
    have hfree : ∀ g ∈ pre, '/' ∉ g := by
      intro g hg
      have hgel : g ∈ splitOnSlash loc := by
        rw [hsplit]
        exact List.mem_append_left _ hg
      exact noSlash_mem_splitOnSlash loc g hgel
    have hcalc : calculate_next_location ⟨tdef⟩
        = Except.ok (joinSlash (pre ++ [verChars ++ pyIntRepr (n + 1), []])) := by
      rw [calculate_eq_next ⟨tdef⟩ loc hloc]
      exact next_location_of_versioned loc pre n last hsplit
    obtain ⟨stF, ti, hrun, hti, hget, hstg, hupd, hdel⟩ :=
      wvp_overwrite_ok dp delPageSize output_path db tbl nowStamp st tdef sdef
        ps _ htbl hcalc hdp hdel0 htv hpsv hnd hstg0
    have hsd := dictGet_setLocationField_sd sdef
      (ensureSlash (joinSlash (pre ++ [verChars ++ pyIntRepr (n + 1), []])))
    obtain ⟨ti2, hti2, hloc2, hschema2⟩ := make_table_input_props
      (setLocationField sdef
        (ensureSlash (joinSlash (pre ++ [verChars ++ pyIntRepr (n + 1), []]))))
      tbl (joinSlash (pre ++ [verChars ++ pyIntRepr (n + 1), []])) _ hsd
    have htieq : ti = ti2 := by
      rw [hti] at hti2
      exact Except.ok.inj hti2
    subst htieq
    have hout := next_location_out_split pre n hfree
    exact ⟨stF, ti, hrun, hget, hloc2, hout,
      next_location_of_versioned _ pre (n + 1) [] hout⟩

/-- Witness for C8: both conjuncts instantiated on the sample states. -/
theorem C8_witness :
    ((write_versioned_parquet sampleDp 100 "mydb/tbl".toList "db".toList
        "tbl".toList "2024".toList ⟨[], [], []⟩).2 = none ∧
     dictGet (write_versioned_parquet sampleDp 100 "mydb/tbl".toList
         "db".toList "tbl".toList "2024".toList ⟨[], [], []⟩).1.tables
         ("db".toList, "tbl".toList)
       = some (setLocationField sampleStagingDef
           (ensureSlash ("mydb/tbl".toList ++ '/' :: "version_0".toList))) ∧
     tableLocation (setLocationField sampleStagingDef
         (ensureSlash ("mydb/tbl".toList ++ '/' :: "version_0".toList)))
       = some (ensureSlash ("mydb/tbl".toList ++ '/' :: "version_0".toList)) ∧
     splitOnSlash (ensureSlash ("mydb/tbl".toList ++ '/' :: "version_0".toList))
       = splitOnSlash "mydb/tbl".toList ++ [verChars ++ pyIntRepr 0, []] ∧
     next_location_of (ensureSlash ("mydb/tbl".toList
         ++ '/' :: "version_0".toList))
       = Except.ok (joinSlash (splitOnSlash "mydb/tbl".toList
           ++ [verChars ++ pyIntRepr (0 + 1), []]))) ∧
    (∃ stF ti,
      write_versioned_parquet sampleDp 100 "mydb/tbl".toList "db".toList
          "tbl".toList "2024".toList sampleOverwriteState = (stF, none) ∧
      dictGet stF.tables ("db".toList, "tbl".toList) = some ti ∧
      tableLocation ti
        = some (joinSlash (["mydb".toList, "tbl".toList]
            ++ [verChars ++ pyIntRepr ((3 : Int) + 1), []])) ∧
      splitOnSlash (joinSlash (["mydb".toList, "tbl".toList]
          ++ [verChars ++ pyIntRepr ((3 : Int) + 1), []]))
        = ["mydb".toList, "tbl".toList]
            ++ [verChars ++ pyIntRepr ((3 : Int) + 1), []] ∧
      next_location_of (joinSlash (["mydb".toList, "tbl".toList]
          ++ [verChars ++ pyIntRepr ((3 : Int) + 1), []]))
        = Except.ok (joinSlash (["mydb".toList, "tbl".toList]
            ++ [verChars ++ pyIntRepr ((3 : Int) + 1 + 1), []]))) :=
  ⟨C8_published_locations_versioned.1 sampleDp 100 "mydb/tbl".toList
      "db".toList "tbl".toList "2024".toList ⟨[], [], []⟩ sampleStagingDef
      [samplePart 'a', samplePart 'b'] (by decide) (by decide),
   C8_published_locations_versioned.2 sampleDp 100 "mydb/tbl".toList
      "db".toList "tbl".toList "2024".toList sampleOverwriteState
      sampleTargetDef sampleStagingDef [samplePart 'a', samplePart 'b']
      "mydb/tbl/version_3/".toList ["mydb".toList, "tbl".toList] 3 []
      (by decide) (by decide) (by decide) (by decide) (by decide) (by decide)
      (by decide) (by decide) (by decide)⟩

theorem clean_single (c : GlueCall) (hc : c.isDeleteTable = false) :
    ∀ e ∈ [c], e.isDeleteTable = false := by
  intro e he
  simp only [List.mem_singleton] at he
  subst he
  exact hc

theorem clean_append (base tr : List GlueCall)
    (hb : ∀ e ∈ base, e.isDeleteTable = false)
    (ht : ∀ e ∈ tr, e.isDeleteTable = false) :
    ∀ e ∈ base ++ tr, e.isDeleteTable = false := by
  intro e he
  rcases List.mem_append.mp he with he | he
  · exact hb e he
  · exact ht e he

/-! ### Claim C9 -/

/-- Counterexample to C9: an overwrite attempt whose staging write fails
reports failure without ever issuing a `delete_table` call — the
staging-table cleanup is not attempted at the end of failed swap
attempts, because line 118 runs only after every preceding line
succeeded. -/
theorem C9_counterexample :
    (write_versioned_parquet (fun _ _ => none) 100 "mydb/tbl".toList
        "db".toList "tbl".toList "2024".toList sampleOverwriteState).2
      ≠ none ∧
    ∀ e ∈ (write_versioned_parquet (fun _ _ => none) 100 "mydb/tbl".toList
        "db".toList "tbl".toList "2024".toList sampleOverwriteState).1.trace,
      e.isDeleteTable = false := by
  decide

/-- C9 (amended): in the overwrite path, the staging-table deletion is
the final call of a fully successful attempt and is issued only then:
when the attempt reports success both the flip (`update_table`) and the
staging deletion (`delete_table`) were issued, and when the attempt
reports failure no staging-table deletion was attempted at all. -/
theorem C9_amended_cleanup_only_on_success (dp : DataProc) (delPageSize : Nat)
    (output_path db tbl nowStamp : Str) (st : CatState) (tdef : TableDict)
    (htbl : dictGet st.tables (db, tbl) = some tdef)
    (hclean : ∀ e ∈ st.trace, e.isDeleteTable = false) :
    ((write_versioned_parquet dp delPageSize output_path db tbl nowStamp st).2
        = none →
      GlueCall.updateTable db tbl
          ∈ (write_versioned_parquet dp delPageSize output_path db tbl nowStamp
              st).1.trace ∧
      GlueCall.deleteTable db (stagingName tbl nowStamp)
          ∈ (write_versioned_parquet dp delPageSize output_path db tbl nowStamp
              st).1.trace) ∧
    ((write_versioned_parquet dp delPageSize output_path db tbl nowStamp st).2
        ≠ none →
      ∀ e ∈ (write_versioned_parquet dp delPageSize output_path db tbl nowStamp
          st).1.trace, e.isDeleteTable = false) := by
  simp only [write_versioned_parquet, get_catalog_table_eq, htbl,
    Option.map_some']
  cases hcalc : calculate_next_location ⟨tdef⟩ with
  | error e0 =>
    simp only [hcalc]
    refine ⟨fun h => absurd h (by simp), fun _ => ?_⟩
    intro e he
    simp only [traced] at he
    rcases List.mem_append.mp he with he | he
    · exact hclean e he
    · simp only [List.mem_singleton] at he
      subst he
      rfl
  | ok nextLoc =>
    cases hdpv : dp nextLoc (stagingName tbl nowStamp) with
    | none =>
      have hwpf : write_parquet dp nextLoc db (stagingName tbl nowStamp)
          (traced (.getTable db tbl) st)
        = (traced (.writeParquet nextLoc db (stagingName tbl nowStamp))
            (traced (.getTable db tbl) st), some .dataProcessorFailure) := by
        simp [write_parquet, hdpv]
      simp only [hcalc, hwpf]
      refine ⟨fun h => absurd h (by simp), fun _ => ?_⟩
      intro e he
      simp only [traced, List.append_assoc, List.mem_append,
        List.mem_singleton] at he
      rcases he with he | rfl | rfl
      · exact hclean e he
      · rfl
      · rfl
    | some pr =>
      obtain ⟨sdef, ps⟩ := pr
      have hwp := write_parquet_ok dp nextLoc db (stagingName tbl nowStamp)
        (traced (.getTable db tbl) st) sdef ps hdpv
      have hsd := dictGet_setLocationField_sd sdef (ensureSlash nextLoc)
      obtain ⟨ti, hti, htiName⟩ : ∃ ti,
          make_table_input (setLocationField sdef (ensureSlash nextLoc)) tbl
            nextLoc = Except.ok ti ∧
          dictGet ti keyName = some (.v0 (.str tbl)) := by
        refine ⟨_, make_table_input_eq _ tbl nextLoc _ hsd, ?_⟩
        rw [dictGet_dictSet_ne _ _ _ _ (by decide), dictGet_dictSet_self]
      obtain ⟨⟨st4, rdel⟩, hdel⟩ : ∃ p, delete_partitions delPageSize db tbl
          (traced (GlueCall.getTable db (stagingName tbl nowStamp))
            { tables := dictSet (traced (GlueCall.getTable db tbl) st).tables
                (db, stagingName tbl nowStamp)
                (setLocationField sdef (ensureSlash nextLoc)),
              parts := (traced (GlueCall.getTable db tbl) st).parts
                ++ List.map (fun p => ((db, stagingName tbl nowStamp), p)) ps,
              trace := (traced (GlueCall.getTable db tbl) st).trace
                ++ [GlueCall.writeParquet nextLoc db (stagingName tbl nowStamp)] }) = p := ⟨_, rfl⟩
      obtain ⟨hdt, tr4, htr4, hfree4⟩ := delete_partitions_frame delPageSize
        db tbl (traced (GlueCall.getTable db (stagingName tbl nowStamp))
            { tables := dictSet (traced (GlueCall.getTable db tbl) st).tables
                (db, stagingName tbl nowStamp)
                (setLocationField sdef (ensureSlash nextLoc)),
              parts := (traced (GlueCall.getTable db tbl) st).parts
                ++ List.map (fun p => ((db, stagingName tbl nowStamp), p)) ps,
              trace := (traced (GlueCall.getTable db tbl) st).trace
                ++ [GlueCall.writeParquet nextLoc db (stagingName tbl nowStamp)] })
      rw [hdel] at hdt htr4
      have hdt2 : st4.tables = dictSet st.tables (db, stagingName tbl nowStamp)
          (setLocationField sdef (ensureSlash nextLoc)) := hdt
      have htr42 : st4.trace
          = st.trace ++ [GlueCall.getTable db tbl]
              ++ [GlueCall.writeParquet nextLoc db (stagingName tbl nowStamp)]
              ++ [GlueCall.getTable db (stagingName tbl nowStamp)] ++ tr4 := htr4
      have hclean4 : ∀ e ∈ st4.trace, e.isDeleteTable = false := by
        rw [htr42]
        exact clean_append _ _ (clean_append _ _ (clean_append _ _
          (clean_append _ _ hclean (clean_single _ rfl)) (clean_single _ rfl))
          (clean_single _ rfl)) (fun x hx => (hfree4 x hx).1)
      cases rdel with
      | some e1 =>
        simp only [hcalc, hwp, get_catalog_table_eq, dictGet_dictSet_self,
          Option.map_some', hti, hdel]
        exact ⟨fun h => Option.noConfusion h, fun _ => hclean4⟩
      | none =>
        obtain ⟨⟨st5, rcopy⟩, hcopy⟩ : ∃ p,
            copy_partitions db (stagingName tbl nowStamp) db tbl st4 = p :=
          ⟨_, rfl⟩
        obtain ⟨hct, tr5, hctr, hfree5⟩ :=
          copy_partitions_frame db (stagingName tbl nowStamp) db tbl st4
        rw [hcopy] at hct hctr
        have hct2 : st5.tables = st4.tables := hct
        have hctr2 : st5.trace = st4.trace ++ tr5 := hctr
        have hclean5 : ∀ e ∈ st5.trace, e.isDeleteTable = false := by
          rw [hctr2]
          exact clean_append _ _ hclean4 (fun x hx => (hfree5 x hx).1)
        cases rcopy with
        | some e1 =>
          simp only [hcalc, hwp, get_catalog_table_eq, dictGet_dictSet_self,
            Option.map_some', hti, hdel, hcopy]
          exact ⟨fun h => Option.noConfusion h, fun _ => hclean5⟩
        | none =>
          have hcont_tbl : containsKey st5.tables (db, tbl) = true := by
            rw [hct2, hdt2]
            apply containsKey_dictSet_of
            rw [containsKey_eq_isSome, htbl]
            rfl
          have hupd := update_table_ok db ti st5 tbl htiName hcont_tbl
          have hcont_tmp : containsKey (dictSet st5.tables (db, tbl) ti)
              (db, stagingName tbl nowStamp) = true := by
            apply containsKey_dictSet_of
            rw [hct2, hdt2]
            exact containsKey_dictSet_self _ _ _
          have hdelT := delete_table_ok db (stagingName tbl nowStamp)
            { tables := dictSet st5.tables (db, tbl) ti, parts := st5.parts,
              trace := st5.trace ++ [GlueCall.updateTable db tbl] }
            hcont_tmp
          simp only [hcalc, hwp, get_catalog_table_eq, dictGet_dictSet_self,
            Option.map_some', hti, hdel, hcopy, hupd, hdelT]
          refine ⟨fun _ => ⟨?_, ?_⟩, fun h => absurd rfl h⟩
          · exact List.mem_append_left _ (List.mem_append_right _ (by simp))
          · exact List.mem_append_right _ (by simp)

/-- Witness for the amended C9 on the sample overwrite state. -/
theorem C9_witness :
    ((write_versioned_parquet sampleDp 100 "mydb/tbl".toList "db".toList
        "tbl".toList "2024".toList sampleOverwriteState).2 = none →
      GlueCall.updateTable "db".toList "tbl".toList
          ∈ (write_versioned_parquet sampleDp 100 "mydb/tbl".toList
              "db".toList "tbl".toList "2024".toList
              sampleOverwriteState).1.trace ∧
      GlueCall.deleteTable "db".toList
          (stagingName "tbl".toList "2024".toList)
          ∈ (write_versioned_parquet sampleDp 100 "mydb/tbl".toList
              "db".toList "tbl".toList "2024".toList
              sampleOverwriteState).1.trace) ∧
    ((write_versioned_parquet sampleDp 100 "mydb/tbl".toList "db".toList
        "tbl".toList "2024".toList sampleOverwriteState).2 ≠ none →
      ∀ e ∈ (write_versioned_parquet sampleDp 100 "mydb/tbl".toList
          "db".toList "tbl".toList "2024".toList sampleOverwriteState).1.trace,
        e.isDeleteTable = false) :=
  C9_amended_cleanup_only_on_success sampleDp 100 "mydb/tbl".toList
    "db".toList "tbl".toList "2024".toList sampleOverwriteState
    sampleTargetDef (by decide) (by decide)

end OverwriteGlue

